import Mathlib

set_option maxRecDepth 8000

/-!
Verification of the Mailbox Index & Message-Set Resolution Engine of
`bmagent` (`email/mailbox.go`), shallowly embedded in Lean 4.

The identifier index is `MessageSequence` (a slice of `uint64`), embedded
as `List ℕ`.  The `float64` interpolation arithmetic of
`GetSequenceNumber` is embedded faithfully: every `float64` operation of
the probe expression rounds its exact value to 53 significant bits,
round-to-nearest, ties-to-even (IEEE-754 binary64; no overflow occurs for
the magnitudes involved).  The computation is carried out on dyadic pairs
`(m, e)` of significand and exponent in pure integer arithmetic
(`roundRat` and the operation wrappers `flN`, `fdiv`, `fmul`, `fadd`,
`ffloor`), and the rational-valued rounding function `rne53`, with its
correctness theorem `dval_roundRat`, is the specification the proofs work
with.
-/

namespace BmMailbox

/-- Bit length of a natural number, with explicit recursion fuel. -/
def bitsAux : ℕ → ℕ → ℕ
  | 0, _ => 0
  | fuel + 1, n => if n = 0 then 0 else bitsAux fuel (n / 2) + 1

/-- Number of binary digits of `n` (`0` for `0`): fuel `n` always
suffices since `log2 n ≤ n`. -/
def bits (n : ℕ) : ℕ := bitsAux n n

/-- Round the fraction `N / D` (`D ≠ 0`) to the nearest integer, ties to
even: the IEEE-754 default rounding at integer granularity. -/
def rneQuot (N D : ℕ) : ℕ :=
  let q := N / D
  let r := N % D
  if 2 * r < D then q
  else if D < 2 * r then q + 1
  else if q % 2 = 0 then q else q + 1

/-- Round the positive rational `A / B` to 53 significant bits,
round-to-nearest ties-to-even, as a dyadic pair `(m, e)` of value
`m·2^e`: the rounding IEEE-754 binary64 (`float64`) applies to an exact
positive value in the normal range.  The scale `s` brings the value into
`(2^52, 2^54)`; the branch picks the grid of its binade. -/
def roundRat (A B : ℕ) : ℕ × ℤ :=
  let s : ℤ := 53 + (bits B : ℤ) - (bits A : ℤ)
  let N := A * 2 ^ s.toNat
  let D := B * 2 ^ (-s).toNat
  if N < 2 ^ 53 * D then (rneQuot N D, -s)
  else (rneQuot N (2 * D), 1 - s)

/-- `roundRat` guarded for a zero numerator (the value `0.0`). -/
def flRat (A B : ℕ) : ℕ × ℤ := if A = 0 then (0, 0) else roundRat A B

/-- The Go conversion `float64(n)` of an unsigned integer. -/
def flN (n : ℕ) : ℕ × ℤ := flRat n 1

/-- `float64` division of nonnegative values (divisor nonzero in every
reachable use: the loop maintains `minUID < maxUID`). -/
def fdiv (x y : ℕ × ℤ) : ℕ × ℤ :=
  let r := flRat x.1 y.1
  (r.1, r.2 + (x.2 - y.2))

/-- `float64` multiplication of nonnegative values. -/
def fmul (x y : ℕ × ℤ) : ℕ × ℤ :=
  let r := flRat (x.1 * y.1) 1
  (r.1, r.2 + (x.2 + y.2))

/-- `float64` addition of nonnegative values. -/
def fadd (x y : ℕ × ℤ) : ℕ × ℤ :=
  let e := min x.2 y.2
  let r := flRat (x.1 * 2 ^ (x.2 - e).toNat + y.1 * 2 ^ (y.2 - e).toNat) 1
  (r.1, r.2 + e)

/-- `math.Floor` of a nonnegative `float64`, composed with the `uint32`
conversion: the floor of a double below `2^64` is exact, so the
composition is the mathematical floor of the dyadic value. -/
def ffloor (x : ℕ × ℤ) : ℕ :=
  if 0 ≤ x.2 then x.1 * 2 ^ x.2.toNat else x.1 / 2 ^ (-x.2).toNat

/-- The probe expression of the interpolation-search loop of
`MessageSequence.GetSequenceNumber` (lines 57-59):
`uint32(math.Floor(float64(minIndex) + ratio*float64(maxIndex-minIndex)))`
with `ratio := float64(uid-minUID) / float64(maxUID-minUID)`, every
`float64` operation rounding to nearest, ties to even.  The `uint64` and
`uint32` subtractions are embedded as truncated ℕ subtraction, valid
since the loop maintains `minUID ≤ uid ≤ maxUID` and
`minIndex ≤ maxIndex`. -/
def floatProbe (uid minUID maxUID minIndex maxIndex : ℕ) : ℕ :=
  ffloor (fadd (flN minIndex)
    (fmul (fdiv (flN (uid - minUID)) (flN (maxUID - minUID)))
      (flN (maxIndex - minIndex))))

/-- Result of one iteration of the `for` loop of `GetSequenceNumber`:
either the function returns, or the loop continues with new bounds, or an
index access is out of bounds (a Go panic). -/
inductive StepResult where
  | ret (p : ℕ)
  | cont (minIndex maxIndex minUID maxUID : ℕ)
  | fail
deriving DecidableEq

/-- One iteration of the `for` loop of `GetSequenceNumber` (lines 56-78 of
`email/mailbox.go`). -/
def gsnStep (uids : List ℕ) (uid minIndex maxIndex minUID maxUID : ℕ) :
    StepResult :=
  let checkIndex := floatProbe uid minUID maxUID minIndex maxIndex
  match uids.get? checkIndex with
  | none => .fail
  | some newUID =>
    if newUID = uid then .ret (checkIndex + 1)
    else if newUID > uid then .cont minIndex checkIndex minUID newUID
    else
      match uids.get? (checkIndex + 1) with
      | none => .fail
      | some newMinUID =>
        if newMinUID > uid then .ret (checkIndex + 1 + 1)
        else .cont (checkIndex + 1) maxIndex newMinUID maxUID

/-- The `for` loop of `GetSequenceNumber`, run with explicit fuel.
`none` means the fuel ran out or an index access was out of bounds.
`gsnLoop_fuel_adequate` shows that on a sorted index, fuel
`maxIndex - minIndex + 1` decides termination: a run of the real loop
either returns within that many iterations or repeats a state and never
returns. -/
def gsnLoop (uids : List ℕ) (uid : ℕ) :
    ℕ → ℕ → ℕ → ℕ → ℕ → Option ℕ
  | 0, _, _, _, _ => none
  | fuel + 1, minIndex, maxIndex, minUID, maxUID =>
    match gsnStep uids uid minIndex maxIndex minUID maxUID with
    | .ret p => some p
    | .cont minIndex' maxIndex' minUID' maxUID' =>
        gsnLoop uids uid fuel minIndex' maxIndex' minUID' maxUID'
    | .fail => none

/-- `MessageSequence.GetSequenceNumber` (lines 29-79 of
`email/mailbox.go`): the lowest 1-based sequence number whose identifier
is `≥ uid`.  `none` reflects a run of the interpolation loop that never
returns (the fuel `uids.length` is enough for every terminating run). -/
def GetSequenceNumber (uids : List ℕ) (uid : ℕ) : Option ℕ :=
  if uids.length = 0 then some 1
  else if uid < uids.getD 0 0 then some 1
  else if uids.getD (uids.length - 1) 0 < uid then some (uids.length + 1)
  else if uids.length = 1 then some 1
  else gsnLoop uids uid uids.length 0 (uids.length - 1)
        (uids.getD 0 0) (uids.getD (uids.length - 1) 0)

example : gsnStep [0, 97, 98, 99, 100] 50 0 4 0 100 = .cont 0 2 0 98 := by
  decide
example : GetSequenceNumber [5, 10, 15] 10 = some 2 := by decide
example : GetSequenceNumber [5, 10, 15] 7 = some 2 := by decide
example : GetSequenceNumber [5, 10, 15] 20 = some 4 := by decide
example : GetSequenceNumber [5, 10, 15] 1 = some 1 := by decide
example : GetSequenceNumber [] 3 = some 1 := by decide
example : flN (2 ^ 53 + 1) = (2 ^ 52, 1) := by decide
example : flN (2 ^ 53 + 3) = (2 ^ 52 + 2, 1) := by decide

/-- The number of identifiers strictly below the target: the 0-based
insertion position of `t` in an ascending duplicate-free sequence. -/
def ltCount (l : List ℕ) (t : ℕ) : ℕ := l.countP (fun x => decide (x < t))

theorem ltCount_le_length (l : List ℕ) (t : ℕ) : ltCount l t ≤ l.length :=
  List.countP_le_length _

theorem le_ltCount_of_getD_lt :
    ∀ (l : List ℕ) (t i : ℕ), i < l.length → l.Pairwise (· < ·) →
      l.getD i 0 < t → i + 1 ≤ ltCount l t := by
  intro l
  induction l with
  | nil => intro t i hi; simp at hi
  | cons a tl ih =>
    intro t i hi hp hlt
    rcases List.pairwise_cons.mp hp with ⟨ha, htl⟩
    have hcnt : ltCount (a :: tl) t =
        ltCount tl t + if a < t then 1 else 0 := by
      simp [ltCount, List.countP_cons]
    cases i with
    | zero =>
      have hat : a < t := by simpa using hlt
      rw [hcnt, if_pos hat]
      omega
    | succ n =>
      have hn : n < tl.length := by simpa using hi
      have hlt' : tl.getD n 0 < t := by simpa using hlt
      have hih := ih t n hn htl hlt'
      have hat : a < t := by
        have hmem : tl.getD n 0 ∈ tl := by
          rw [List.getD_eq_getElem _ _ hn]
          exact List.getElem_mem hn
        exact lt_trans (ha _ hmem) hlt'
      rw [hcnt, if_pos hat]
      omega

theorem ltCount_le_of_le_getD :
    ∀ (l : List ℕ) (t i : ℕ), i < l.length → l.Pairwise (· < ·) →
      t ≤ l.getD i 0 → ltCount l t ≤ i := by
  intro l
  induction l with
  | nil => intro t i hi; simp at hi
  | cons a tl ih =>
    intro t i hi hp hle
    rcases List.pairwise_cons.mp hp with ⟨ha, htl⟩
    have hcnt : ltCount (a :: tl) t =
        ltCount tl t + if a < t then 1 else 0 := by
      simp [ltCount, List.countP_cons]
    cases i with
    | zero =>
      have hta : t ≤ a := by simpa using hle
      have h0 : ltCount tl t = 0 := by
        apply List.countP_eq_zero.mpr
        intro x hx
        simpa using not_lt.mpr (le_trans hta (le_of_lt (ha x hx)))
      rw [hcnt, h0, if_neg (not_lt.mpr hta)]
    | succ n =>
      have hn : n < tl.length := by simpa using hi
      have hle' : t ≤ tl.getD n 0 := by simpa using hle
      have hih := ih t n hn htl hle'
      rw [hcnt]
      split <;> omega

/-- On a strictly ascending list the elements are strictly monotone in
the index. -/
theorem getD_lt_getD_of_lt (l : List ℕ) (hp : l.Pairwise (· < ·))
    {i j : ℕ} (hij : i < j) (hj : j < l.length) :
    l.getD i 0 < l.getD j 0 := by
  have hi : i < l.length := lt_trans hij hj
  rw [List.getD_eq_getElem _ _ hi, List.getD_eq_getElem _ _ hj]
  exact List.pairwise_iff_get.mp hp ⟨i, hi⟩ ⟨j, hj⟩ hij

/-- If the target occurs in a strictly ascending list, it sits exactly at
index `ltCount`. -/
theorem getD_ltCount_of_mem (l : List ℕ) (t : ℕ) (hp : l.Pairwise (· < ·))
    (ht : t ∈ l) : ltCount l t < l.length ∧ l.getD (ltCount l t) 0 = t := by
  rcases List.mem_iff_getElem.mp ht with ⟨i, hi, hit⟩
  have hgd : l.getD i 0 = t := by rw [List.getD_eq_getElem _ _ hi]; exact hit
  have hub : ltCount l t ≤ i :=
    ltCount_le_of_le_getD l t i hi hp (le_of_eq hgd.symm)
  have hlb : i ≤ ltCount l t := by
    rcases Nat.eq_zero_or_pos i with rfl | hpos
    · omega
    · have h2 : l.getD (i - 1) 0 < l.getD i 0 :=
        getD_lt_getD_of_lt l hp (by omega) hi
      rw [hgd] at h2
      have := le_ltCount_of_getD_lt l t (i - 1) (by omega) hp h2
      omega
  have : ltCount l t = i := le_antisymm hub hlb
  rw [this, hgd]
  exact ⟨hi, rfl⟩

theorem get?_eq_some_getD {l : List ℕ} {i : ℕ} (hi : i < l.length) :
    l.get? i = some (l.getD i 0) := by
  rw [List.get?_eq_getElem? , List.getElem?_eq_getElem hi,
    List.getD_eq_getElem _ _ hi]


/-! ## The rounding specification

`dval` is the value of a dyadic pair; `rne53` is round-to-nearest-even at
53 significant bits over ℚ, the rounding `float64` applies to an exact
nonnegative value in the normal range; `dval_roundRat` proves the integer
computation correct against it. -/

/-- Value of a dyadic significand-exponent pair. -/
def dval (x : ℕ × ℤ) : ℚ := (x.1 : ℚ) * 2 ^ x.2

/-- Round a rational to the nearest integer, ties to even. -/
def rneInt (q : ℚ) : ℤ :=
  if q - ⌊q⌋ < 1 / 2 then ⌊q⌋
  else if 1 / 2 < q - ⌊q⌋ then ⌊q⌋ + 1
  else if ⌊q⌋ % 2 = 0 then ⌊q⌋ else ⌊q⌋ + 1

/-- Round-to-nearest-even at 53 significant bits: the rounding `float64`
applies to an exact positive value in the normal range (zero maps to
zero; the probe pipeline never produces a negative value). -/
def rne53 (q : ℚ) : ℚ :=
  if 0 < q then
    (rneInt (q / 2 ^ (Int.log 2 q - 52)) : ℚ) * 2 ^ (Int.log 2 q - 52)
  else 0

theorem bitsAux_zero : ∀ fuel, bitsAux fuel 0 = 0 := by
  intro fuel; cases fuel <;> rfl

theorem bitsAux_spec : ∀ fuel n, n ≤ fuel → 1 ≤ n →
    1 ≤ bitsAux fuel n ∧ 2 ^ (bitsAux fuel n - 1) ≤ n ∧
      n < 2 ^ bitsAux fuel n := by
  intro fuel
  induction fuel with
  | zero => intro n h1 h2; omega
  | succ f ih =>
    intro n hle hpos
    have hne : ¬ n = 0 := by omega
    simp only [bitsAux, if_neg hne]
    rcases Nat.lt_or_ge n 2 with h2 | h2
    · have hn1 : n = 1 := by omega
      subst hn1
      norm_num [bitsAux_zero]
    · have hstep : n / 2 ≤ f := by omega
      have hp2 : 1 ≤ n / 2 := by omega
      obtain ⟨hb1, hlb, hub⟩ := ih (n / 2) hstep hp2
      set b := bitsAux f (n / 2) with hbdef
      have h2b : 2 ^ b = 2 * 2 ^ (b - 1) := by
        conv_lhs => rw [show b = (b - 1) + 1 by omega]
        rw [pow_succ]
        ring
      have h2b1 : 2 ^ (b + 1) = 2 * 2 ^ b := by rw [pow_succ]; ring
      refine ⟨by omega, ?_, by omega⟩
      have : 2 ^ (b + 1 - 1) = 2 ^ b := by norm_num
      omega

theorem bits_spec (n : ℕ) (h : 1 ≤ n) :
    1 ≤ bits n ∧ 2 ^ (bits n - 1) ≤ n ∧ n < 2 ^ bits n :=
  bitsAux_spec n n le_rfl h

theorem rneInt_intCast (z : ℤ) : rneInt (z : ℚ) = z := by
  unfold rneInt
  rw [Int.floor_intCast, if_pos (by rw [sub_self]; norm_num)]

theorem rneInt_cases (q : ℚ) : rneInt q = ⌊q⌋ ∨ rneInt q = ⌊q⌋ + 1 := by
  unfold rneInt
  split_ifs <;> simp

theorem rneInt_mono {q r : ℚ} (h : q ≤ r) : rneInt q ≤ rneInt r := by
  rcases lt_or_ge ⌊q⌋ ⌊r⌋ with hf | hf
  · rcases rneInt_cases q with h1 | h1 <;> rcases rneInt_cases r with h2 | h2 <;>
      omega
  · have hf' : ⌊q⌋ = ⌊r⌋ := le_antisymm (Int.floor_le_floor h) hf
    unfold rneInt
    rw [hf']
    split_ifs <;> first | omega | linarith

theorem intFloor_eq_natFloor {q : ℚ} (h : 0 ≤ q) : ⌊q⌋ = (⌊q⌋₊ : ℤ) := by
  rw [← Int.floor_toNat, Int.toNat_of_nonneg (Int.floor_nonneg.mpr h)]

theorem int_log2_eq {q : ℚ} {E : ℤ} (h1 : (2 : ℚ) ^ E ≤ q)
    (h2 : q < 2 ^ (E + 1)) : Int.log 2 q = E := by
  have hq : 0 < q := lt_of_lt_of_le (by positivity) h1
  have h1' : ((2 : ℕ) : ℚ) ^ E ≤ q := by exact_mod_cast h1
  have h2' : q < ((2 : ℕ) : ℚ) ^ (E + 1) := by exact_mod_cast h2
  have hE : E ≤ Int.log 2 q := (Int.zpow_le_iff_le_log one_lt_two hq).mp h1'
  have hE' : Int.log 2 q < E + 1 := (Int.lt_zpow_iff_log_lt one_lt_two hq).mp h2'
  omega

theorem log2_zpow_le {q : ℚ} (hq : 0 < q) : (2 : ℚ) ^ Int.log 2 q ≤ q := by
  have := Int.zpow_log_le_self (b := 2) one_lt_two hq
  exact_mod_cast this

theorem lt_log2_zpow {q : ℚ} : q < (2 : ℚ) ^ (Int.log 2 q + 1) := by
  have := Int.lt_zpow_succ_log_self (b := 2) one_lt_two q
  exact_mod_cast this

theorem rne53_nonpos {q : ℚ} (h : q ≤ 0) : rne53 q = 0 := by
  rw [rne53, if_neg (not_lt.mpr h)]

theorem rne53_nonneg (q : ℚ) : 0 ≤ rne53 q := by
  unfold rne53
  split_ifs with h
  · have hgrid : (0 : ℚ) < 2 ^ (Int.log 2 q - 52) := by positivity
    have hx : (0 : ℚ) ≤ q / 2 ^ (Int.log 2 q - 52) := by positivity
    have hfl : 0 ≤ ⌊q / 2 ^ (Int.log 2 q - 52)⌋ := Int.floor_nonneg.mpr hx
    have : (0 : ℤ) ≤ rneInt (q / 2 ^ (Int.log 2 q - 52)) := by
      rcases rneInt_cases (q / 2 ^ (Int.log 2 q - 52)) with h1 | h1 <;> omega
    have : (0 : ℚ) ≤ (rneInt (q / 2 ^ (Int.log 2 q - 52)) : ℚ) := by
      exact_mod_cast this
    positivity
  · exact le_refl _

theorem rne53_le_zpow {q : ℚ} (hq : 0 < q) :
    rne53 q ≤ 2 ^ (Int.log 2 q + 1) := by
  rw [rne53, if_pos hq]
  set E := Int.log 2 q with hE
  have hgrid : (0 : ℚ) < 2 ^ (E - 52) := by positivity
  have hx : q / 2 ^ (E - 52) < 2 ^ (53 : ℤ) := by
    rw [div_lt_iff₀ hgrid, ← zpow_add₀ (two_ne_zero)]
    have : (53 : ℤ) + (E - 52) = E + 1 := by ring
    rw [this]
    exact lt_log2_zpow
  have hfl : ⌊q / 2 ^ (E - 52)⌋ < 2 ^ (53 : ℕ) := by
    rw [Int.floor_lt]
    exact_mod_cast hx
  have hrne : rneInt (q / 2 ^ (E - 52)) ≤ 2 ^ (53 : ℕ) := by
    rcases rneInt_cases (q / 2 ^ (E - 52)) with h1 | h1 <;> omega
  calc (rneInt (q / 2 ^ (E - 52)) : ℚ) * 2 ^ (E - 52)
      ≤ (2 ^ (53 : ℕ) : ℤ) * 2 ^ (E - 52) := by
        apply mul_le_mul_of_nonneg_right _ (le_of_lt hgrid)
        exact_mod_cast hrne
    _ = 2 ^ (E + 1) := by
        have h53 : ((2 ^ (53 : ℕ) : ℤ) : ℚ) = (2 : ℚ) ^ (53 : ℤ) := by
          norm_num
        have hexp : (53 : ℤ) + (E - 52) = E + 1 := by ring
        rw [h53, ← zpow_add₀ (two_ne_zero : (2 : ℚ) ≠ 0), hexp]

theorem zpow_le_rne53 {q : ℚ} (hq : 0 < q) :
    (2 : ℚ) ^ Int.log 2 q ≤ rne53 q := by
  rw [rne53, if_pos hq]
  set E := Int.log 2 q with hE
  have hgrid : (0 : ℚ) < 2 ^ (E - 52) := by positivity
  have hx : (2 ^ (52 : ℤ) : ℚ) ≤ q / 2 ^ (E - 52) := by
    rw [le_div_iff₀ hgrid, ← zpow_add₀ (two_ne_zero)]
    have : (52 : ℤ) + (E - 52) = E := by ring
    rw [this]
    exact log2_zpow_le hq
  have hfl : (2 ^ (52 : ℕ) : ℤ) ≤ ⌊q / 2 ^ (E - 52)⌋ := by
    rw [Int.le_floor]
    exact_mod_cast hx
  have hrne : (2 ^ (52 : ℕ) : ℤ) ≤ rneInt (q / 2 ^ (E - 52)) := by
    rcases rneInt_cases (q / 2 ^ (E - 52)) with h1 | h1 <;> omega
  calc (2 : ℚ) ^ E = (2 ^ (52 : ℕ) : ℤ) * 2 ^ (E - 52) := by
        have h52 : ((2 ^ (52 : ℕ) : ℤ) : ℚ) = (2 : ℚ) ^ (52 : ℤ) := by
          norm_num
        have hexp : (52 : ℤ) + (E - 52) = E := by ring
        rw [h52, ← zpow_add₀ (two_ne_zero : (2 : ℚ) ≠ 0), hexp]
    _ ≤ (rneInt (q / 2 ^ (E - 52)) : ℚ) * 2 ^ (E - 52) := by
        apply mul_le_mul_of_nonneg_right _ (le_of_lt hgrid)
        exact_mod_cast hrne

theorem rne53_scale (q : ℚ) (t : ℤ) : rne53 (q * 2 ^ t) = rne53 q * 2 ^ t := by
  rcases le_or_lt q 0 with hq | hq
  · have h1 : q * 2 ^ t ≤ 0 :=
      mul_nonpos_of_nonpos_of_nonneg hq (by positivity)
    rw [rne53_nonpos h1, rne53_nonpos hq, zero_mul]
  · have hq' : 0 < q * 2 ^ t := by positivity
    have hlog : Int.log 2 (q * 2 ^ t) = Int.log 2 q + t := by
      apply int_log2_eq
      · rw [zpow_add₀ (two_ne_zero)]
        exact mul_le_mul_of_nonneg_right (log2_zpow_le hq) (by positivity)
      · have : Int.log 2 q + t + 1 = (Int.log 2 q + 1) + t := by ring
        rw [this, zpow_add₀ (two_ne_zero)]
        exact mul_lt_mul_of_pos_right lt_log2_zpow (by positivity)
    rw [rne53, if_pos hq', rne53, if_pos hq, hlog]
    have harg : q * 2 ^ t / 2 ^ (Int.log 2 q + t - 52) =
        q / 2 ^ (Int.log 2 q - 52) := by
      rw [div_eq_div_iff (by positivity) (by positivity)]
      have hexp : t + (Int.log 2 q - 52) = Int.log 2 q + t - 52 := by ring
      rw [mul_assoc, ← zpow_add₀ (two_ne_zero : (2 : ℚ) ≠ 0), hexp]
    have hexp2 : Int.log 2 q + t - 52 = (Int.log 2 q - 52) + t := by ring
    rw [harg, hexp2, zpow_add₀ (two_ne_zero : (2 : ℚ) ≠ 0), ← mul_assoc]

theorem rne53_mono {q r : ℚ} (h : q ≤ r) : rne53 q ≤ rne53 r := by
  rcases le_or_lt q 0 with hq | hq
  · rw [rne53_nonpos hq]
    exact rne53_nonneg r
  · have hr : 0 < r := lt_of_lt_of_le hq h
    have hEE : Int.log 2 q ≤ Int.log 2 r := Int.log_mono_right hq h
    rcases eq_or_lt_of_le hEE with hE | hE
    · rw [rne53, if_pos hq, rne53, if_pos hr, ← hE]
      have hgrid : (0 : ℚ) < 2 ^ (Int.log 2 q - 52) := by positivity
      have harg : q / 2 ^ (Int.log 2 q - 52) ≤ r / 2 ^ (Int.log 2 q - 52) := by
        gcongr
      apply mul_le_mul_of_nonneg_right _ (le_of_lt hgrid)
      exact_mod_cast rneInt_mono harg
    · have h1 : rne53 q ≤ 2 ^ (Int.log 2 q + 1) := rne53_le_zpow hq
      have h2 : (2 : ℚ) ^ Int.log 2 r ≤ rne53 r := zpow_le_rne53 hr
      have h3 : (2 : ℚ) ^ (Int.log 2 q + 1) ≤ 2 ^ Int.log 2 r := by
        apply zpow_le_zpow_right₀ one_le_two
        omega
      linarith

theorem rne53_natCast (n : ℕ) (h : n < 2 ^ 53) : rne53 (n : ℚ) = n := by
  rcases Nat.eq_zero_or_pos n with rfl | hpos
  · rw [Nat.cast_zero, rne53_nonpos le_rfl]
  · have hq : (0 : ℚ) < n := by exact_mod_cast hpos
    set E := Int.log 2 (n : ℚ) with hE
    have hE53 : E ≤ 52 := by
      by_contra hgt
      push_neg at hgt
      have h1 : (2 : ℚ) ^ (53 : ℤ) ≤ 2 ^ E :=
        zpow_le_zpow_right₀ one_le_two (by omega)
      have h2 := log2_zpow_le hq
      have h3 : ((2 ^ 53 : ℕ) : ℚ) = (2 : ℚ) ^ (53 : ℤ) := by norm_num
      have h4 : (n : ℚ) < ((2 ^ 53 : ℕ) : ℚ) := by exact_mod_cast h
      rw [← hE] at h2
      linarith
    have hk : ((52 - E).toNat : ℤ) = 52 - E := Int.toNat_of_nonneg (by omega)
    have hcancel : (2 : ℚ) ^ ((52 - E : ℤ)) * 2 ^ (E - 52) = 1 := by
      rw [← zpow_add₀ (two_ne_zero : (2 : ℚ) ≠ 0)]
      have he : (52 - E) + (E - 52) = (0 : ℤ) := by ring
      rw [he, zpow_zero]
    have harg : (n : ℚ) / 2 ^ (E - 52) =
        (((n * 2 ^ (52 - E).toNat : ℕ) : ℤ) : ℚ) := by
      push_cast
      rw [← zpow_natCast (2 : ℚ) (52 - E).toNat, hk,
        div_eq_iff (ne_of_gt (by positivity : (0:ℚ) < 2 ^ (E - 52))),
        mul_assoc, hcancel, mul_one]
    rw [rne53, if_pos hq, ← hE, harg, rneInt_intCast]
    push_cast
    rw [← zpow_natCast (2 : ℚ) (52 - E).toNat, hk, mul_assoc, hcancel, mul_one]

theorem rne53_one : rne53 (1 : ℚ) = 1 := by
  have h := rne53_natCast 1 (by norm_num)
  simpa using h

theorem rneQuot_eq (N D : ℕ) (hD : 0 < D) :
    (rneQuot N D : ℤ) = rneInt ((N : ℚ) / D) := by
  have hD' : (0 : ℚ) < D := by exact_mod_cast hD
  have h0 : (0 : ℚ) ≤ (N : ℚ) / D := by positivity
  have hfl : ⌊(N : ℚ) / D⌋ = ((N / D : ℕ) : ℤ) := by
    rw [intFloor_eq_natFloor h0, Nat.floor_div_nat, Nat.floor_natCast]
  have hmod : (N : ℚ) = (D : ℚ) * ((N / D : ℕ) : ℚ) + ((N % D : ℕ) : ℚ) := by
    exact_mod_cast (Nat.div_add_mod N D).symm
  have hfrac : (N : ℚ) / D - (((N / D : ℕ) : ℤ) : ℚ) =
      ((N % D : ℕ) : ℚ) / D := by
    rw [Int.cast_natCast, eq_div_iff (ne_of_gt hD'), sub_mul,
      div_mul_cancel₀ _ (ne_of_gt hD')]
    ring_nf
    ring_nf at hmod
    linarith [hmod]
  have hlt : ((N : ℚ) / D - (((N / D : ℕ) : ℤ) : ℚ) < 1 / 2) ↔
      2 * (N % D) < D := by
    rw [hfrac, div_lt_iff₀ hD']
    constructor
    · intro hx
      have hx2 : ((2 * (N % D) : ℕ) : ℚ) < (D : ℚ) := by push_cast; linarith
      exact_mod_cast hx2
    · intro hx
      have hx2 : ((2 * (N % D) : ℕ) : ℚ) < (D : ℚ) := by exact_mod_cast hx
      push_cast at hx2
      linarith
  have hgt : (1 / 2 < (N : ℚ) / D - (((N / D : ℕ) : ℤ) : ℚ)) ↔
      D < 2 * (N % D) := by
    rw [hfrac, lt_div_iff₀ hD']
    constructor
    · intro hx
      have hx2 : (D : ℚ) < ((2 * (N % D) : ℕ) : ℚ) := by push_cast; linarith
      exact_mod_cast hx2
    · intro hx
      have hx2 : (D : ℚ) < ((2 * (N % D) : ℕ) : ℚ) := by exact_mod_cast hx
      push_cast at hx2
      linarith
  have hpar : (((N / D : ℕ) : ℤ) % 2 = 0) ↔ ((N / D) % 2 = 0) := by omega
  simp only [rneQuot, rneInt, hfl, hlt, hgt, hpar]
  split_ifs <;> push_cast <;> ring

theorem roundRat_scaled_bounds (A B : ℕ) (hA : 1 ≤ A) (hB : 1 ≤ B) :
    2 ^ 52 * (B * 2 ^ ((-(53 + (bits B : ℤ) - (bits A : ℤ))).toNat)) <
      A * 2 ^ ((53 + (bits B : ℤ) - (bits A : ℤ)).toNat) ∧
    A * 2 ^ ((53 + (bits B : ℤ) - (bits A : ℤ)).toNat) <
      2 ^ 54 * (B * 2 ^ ((-(53 + (bits B : ℤ) - (bits A : ℤ))).toNat)) := by
  obtain ⟨ha1, halb, haub⟩ := bits_spec A hA
  obtain ⟨hb1, hblb, hbub⟩ := bits_spec B hB
  set a := bits A with hadef
  set b := bits B with hbdef
  have hp : ((53 + (b : ℤ) - (a : ℤ)).toNat) = 53 + b - a := by omega
  have hq : ((-(53 + (b : ℤ) - (a : ℤ))).toNat) = a - (53 + b) := by omega
  rw [hp, hq]
  rcases le_or_lt a (53 + b) with hcase | hcase
  · have hq0 : a - (53 + b) = 0 := by omega
    rw [hq0, pow_zero, mul_one]
    constructor
    · calc 2 ^ 52 * B < 2 ^ 52 * 2 ^ b := by gcongr
        _ = 2 ^ (a - 1) * 2 ^ (53 + b - a) := by
            rw [← pow_add, ← pow_add]
            congr 1
            omega
        _ ≤ A * 2 ^ (53 + b - a) := by gcongr
    · calc A * 2 ^ (53 + b - a) < 2 ^ a * 2 ^ (53 + b - a) := by gcongr
        _ = 2 ^ 54 * 2 ^ (b - 1) := by
            rw [← pow_add, ← pow_add]
            congr 1
            omega
        _ ≤ 2 ^ 54 * B := by gcongr
  · have hp0 : 53 + b - a = 0 := by omega
    rw [hp0, pow_zero, mul_one]
    constructor
    · calc 2 ^ 52 * (B * 2 ^ (a - (53 + b))) <
            2 ^ 52 * (2 ^ b * 2 ^ (a - (53 + b))) := by gcongr
        _ = 2 ^ (a - 1) := by
            rw [← pow_add, ← pow_add]
            congr 1
            omega
        _ ≤ A := halb
    · calc A < 2 ^ a := haub
        _ = 2 ^ 54 * (2 ^ (b - 1) * 2 ^ (a - (53 + b))) := by
            rw [← pow_add, ← pow_add]
            congr 1
            omega
        _ ≤ 2 ^ 54 * (B * 2 ^ (a - (53 + b))) := by gcongr

theorem dval_roundRat (A B : ℕ) (hA : 1 ≤ A) (hB : 1 ≤ B) :
    dval (roundRat A B) = rne53 ((A : ℚ) / B) := by
  obtain ⟨hlow, hhigh⟩ := roundRat_scaled_bounds A B hA hB
  simp only [roundRat]
  set s : ℤ := 53 + (bits B : ℤ) - (bits A : ℤ) with hsdef
  set N := A * 2 ^ s.toNat with hNdef
  set D := B * 2 ^ (-s).toNat with hDdef
  have hDpos : 0 < D := by positivity
  have hD' : (0 : ℚ) < D := by exact_mod_cast hDpos
  have hx : (N : ℚ) / D = (A : ℚ) / B * 2 ^ s := by
    have hsplit : ((s.toNat : ℤ)) - (((-s).toNat : ℤ)) = s := by omega
    rw [hNdef, hDdef]
    push_cast
    rw [← div_mul_div_comm, ← zpow_natCast (2 : ℚ) s.toNat,
      ← zpow_natCast (2 : ℚ) (-s).toNat,
      ← zpow_sub₀ (two_ne_zero : (2:ℚ) ≠ 0), hsplit]
  have hx' : (A : ℚ) / B = (N : ℚ) / D * 2 ^ (-s) := by
    rw [hx, mul_assoc, ← zpow_add₀ (two_ne_zero : (2:ℚ) ≠ 0)]
    simp
  have hxpos : (0 : ℚ) < (A : ℚ) / B := by positivity
  have hb1 : (2 : ℚ) ^ (52 : ℤ) < (N : ℚ) / D := by
    rw [lt_div_iff₀ hD']
    have h1 : ((2 ^ 52 * D : ℕ) : ℚ) < (N : ℚ) := by exact_mod_cast hlow
    push_cast at h1
    calc (2:ℚ) ^ (52:ℤ) * D = (2:ℚ) ^ (52:ℕ) * D := by norm_num
      _ < N := h1
  have hb2 : (N : ℚ) / D < 2 ^ (54 : ℤ) := by
    rw [div_lt_iff₀ hD']
    have h1 : (N : ℚ) < ((2 ^ 54 * D : ℕ) : ℚ) := by exact_mod_cast hhigh
    push_cast at h1
    calc (N:ℚ) < 2 ^ (54:ℕ) * D := h1
      _ = (2:ℚ) ^ (54:ℤ) * D := by norm_num
  by_cases hc : N < 2 ^ 53 * D
  · rw [if_pos hc]
    have hcQ : (N : ℚ) / D < 2 ^ (53 : ℤ) := by
      rw [div_lt_iff₀ hD']
      have h1 : (N : ℚ) < ((2 ^ 53 * D : ℕ) : ℚ) := by exact_mod_cast hc
      push_cast at h1
      calc (N:ℚ) < 2 ^ (53:ℕ) * D := h1
        _ = (2:ℚ) ^ (53:ℤ) * D := by norm_num
    have hlogx : Int.log 2 ((A : ℚ) / B) = 52 - s := by
      apply int_log2_eq
      · rw [hx']
        calc (2:ℚ) ^ (52 - s) = 2 ^ ((52:ℤ) + -s) := by
              have he : (52 - s : ℤ) = 52 + -s := by ring
              rw [he]
          _ = 2 ^ (52:ℤ) * 2 ^ (-s) := zpow_add₀ (two_ne_zero : (2:ℚ) ≠ 0) _ _
          _ ≤ (N:ℚ)/D * 2 ^ (-s) :=
              mul_le_mul_of_nonneg_right (le_of_lt hb1) (by positivity)
      · rw [hx']
        calc (N:ℚ)/D * 2 ^ (-s) < 2 ^ (53:ℤ) * 2 ^ (-s) :=
              mul_lt_mul_of_pos_right hcQ (by positivity)
          _ = 2 ^ ((53:ℤ) + -s) :=
              (zpow_add₀ (two_ne_zero : (2:ℚ) ≠ 0) _ _).symm
          _ = 2 ^ (52 - s + 1) := by
              have he : (53:ℤ) + -s = 52 - s + 1 := by ring
              rw [he]
    have hgrid : (52 - s : ℤ) - 52 = -s := by ring
    rw [rne53, if_pos hxpos, hlogx, hgrid]
    have harg : (A : ℚ) / B / 2 ^ (-s : ℤ) = (N : ℚ) / D := by
      rw [hx', mul_div_cancel_right₀ _
        (ne_of_gt (by positivity : (0:ℚ) < (2:ℚ) ^ (-s : ℤ)))]
    rw [harg, ← rneQuot_eq N D hDpos]
    simp only [dval]
    push_cast
    ring
  · rw [if_neg hc]
    have hcQ : (2 : ℚ) ^ (53 : ℤ) ≤ (N : ℚ) / D := by
      rw [le_div_iff₀ hD']
      have h1 : ((2 ^ 53 * D : ℕ) : ℚ) ≤ (N : ℚ) := by
        exact_mod_cast not_lt.mp hc
      push_cast at h1
      calc (2:ℚ) ^ (53:ℤ) * D = (2:ℚ) ^ (53:ℕ) * D := by norm_num
        _ ≤ N := h1
    have hlogx : Int.log 2 ((A : ℚ) / B) = 53 - s := by
      apply int_log2_eq
      · rw [hx']
        calc (2:ℚ) ^ (53 - s) = 2 ^ ((53:ℤ) + -s) := by
              have he : (53 - s : ℤ) = 53 + -s := by ring
              rw [he]
          _ = 2 ^ (53:ℤ) * 2 ^ (-s) := zpow_add₀ (two_ne_zero : (2:ℚ) ≠ 0) _ _
          _ ≤ (N:ℚ)/D * 2 ^ (-s) :=
              mul_le_mul_of_nonneg_right hcQ (by positivity)
      · rw [hx']
        calc (N:ℚ)/D * 2 ^ (-s) < 2 ^ (54:ℤ) * 2 ^ (-s) :=
              mul_lt_mul_of_pos_right hb2 (by positivity)
          _ = 2 ^ ((54:ℤ) + -s) :=
              (zpow_add₀ (two_ne_zero : (2:ℚ) ≠ 0) _ _).symm
          _ = 2 ^ (53 - s + 1) := by
              have he : (54:ℤ) + -s = 53 - s + 1 := by ring
              rw [he]
    have hgrid : (53 - s : ℤ) - 52 = 1 - s := by ring
    rw [rne53, if_pos hxpos, hlogx, hgrid]
    have h2D : 0 < 2 * D := by positivity
    have harg : (A : ℚ) / B / 2 ^ ((1 : ℤ) - s) = (N : ℚ) / ((2 * D : ℕ)) := by
      have hne : ((2:ℚ) ^ ((1:ℤ) - s)) ≠ 0 := ne_of_gt (by positivity)
      have hne2 : ((2 * D : ℕ) : ℚ) ≠ 0 := by
        have hp : (0:ℚ) < ((2 * D : ℕ) : ℚ) := by exact_mod_cast h2D
        exact ne_of_gt hp
      have hNval : (N : ℚ) = (A : ℚ) / B * 2 ^ s * D := by
        rw [← hx]
        field_simp
      have hzz : (2:ℚ) ^ s * 2 ^ ((1:ℤ) - s) = 2 := by
        rw [← zpow_add₀ (two_ne_zero : (2:ℚ) ≠ 0)]
        have he : s + (1 - s) = (1:ℤ) := by ring
        rw [he, zpow_one]
      rw [div_eq_div_iff hne hne2, hNval]
      push_cast
      calc (A:ℚ)/B * (2 * D) = (A:ℚ)/B * D * ((2:ℚ) ^ s * 2 ^ ((1:ℤ) - s)) := by
            rw [hzz]
            ring
        _ = (A:ℚ)/B * 2 ^ s * D * 2 ^ ((1:ℤ) - s) := by ring
    rw [harg, ← rneQuot_eq N (2 * D) h2D]
    simp only [dval]
    push_cast
    ring

theorem dval_flRat (A B : ℕ) (hB : 1 ≤ B) :
    dval (flRat A B) = rne53 ((A : ℚ) / B) := by
  rcases Nat.eq_zero_or_pos A with rfl | hA
  · have h0 : ((0 : ℕ) : ℚ) / B = 0 := by simp
    rw [flRat, if_pos rfl, h0, rne53_nonpos le_rfl]
    simp [dval]
  · rw [flRat, if_neg (by omega)]
    exact dval_roundRat A B hA hB

theorem dval_flN (n : ℕ) : dval (flN n) = rne53 (n : ℚ) := by
  have h := dval_flRat n 1 le_rfl
  simpa using h

theorem dval_nonneg (x : ℕ × ℤ) : 0 ≤ dval x := by
  unfold dval
  positivity

theorem sig_pos_of_dval_pos {x : ℕ × ℤ} (h : 0 < dval x) : 1 ≤ x.1 := by
  by_contra h0
  push_neg at h0
  have hz : x.1 = 0 := by omega
  unfold dval at h
  rw [hz] at h
  simp at h

theorem dval_fdiv (x y : ℕ × ℤ) (hy : 1 ≤ y.1) :
    dval (fdiv x y) = rne53 (dval x / dval y) := by
  have hy0 : ((y.1 : ℚ)) ≠ 0 := by
    have hp : (0 : ℚ) < y.1 := by exact_mod_cast hy
    exact ne_of_gt hp
  have hq : dval x / dval y = ((x.1 : ℚ) / y.1) * 2 ^ (x.2 - y.2) := by
    unfold dval
    rw [zpow_sub₀ (two_ne_zero : (2:ℚ) ≠ 0)]
    field_simp
  rw [hq, rne53_scale]
  show dval ((flRat x.1 y.1).1, (flRat x.1 y.1).2 + (x.2 - y.2)) = _
  unfold dval
  rw [zpow_add₀ (two_ne_zero : (2:ℚ) ≠ 0), ← mul_assoc]
  congr 1
  exact dval_flRat x.1 y.1 hy

theorem dval_fmul (x y : ℕ × ℤ) : dval (fmul x y) = rne53 (dval x * dval y) := by
  have hq : dval x * dval y = ((x.1 * y.1 : ℕ) : ℚ) * 2 ^ (x.2 + y.2) := by
    unfold dval
    push_cast
    rw [zpow_add₀ (two_ne_zero : (2:ℚ) ≠ 0)]
    ring
  rw [hq, rne53_scale]
  show dval ((flRat (x.1 * y.1) 1).1, (flRat (x.1 * y.1) 1).2 + (x.2 + y.2)) = _
  unfold dval
  rw [zpow_add₀ (two_ne_zero : (2:ℚ) ≠ 0), ← mul_assoc]
  congr 1
  have h := dval_flRat (x.1 * y.1) 1 le_rfl
  simpa using h

theorem dval_fadd (x y : ℕ × ℤ) : dval (fadd x y) = rne53 (dval x + dval y) := by
  set e := min x.2 y.2 with he
  have hxe : e ≤ x.2 := min_le_left _ _
  have hye : e ≤ y.2 := min_le_right _ _
  have hM : ((x.1 * 2 ^ (x.2 - e).toNat + y.1 * 2 ^ (y.2 - e).toNat : ℕ) : ℚ) *
      2 ^ e = dval x + dval y := by
    unfold dval
    push_cast
    rw [← zpow_natCast (2:ℚ) (x.2 - e).toNat, ← zpow_natCast (2:ℚ) (y.2 - e).toNat]
    have h1 : ((x.2 - e).toNat : ℤ) = x.2 - e := by omega
    have h2 : ((y.2 - e).toNat : ℤ) = y.2 - e := by omega
    rw [h1, h2, add_mul, mul_assoc, mul_assoc,
      ← zpow_add₀ (two_ne_zero : (2:ℚ) ≠ 0), ← zpow_add₀ (two_ne_zero : (2:ℚ) ≠ 0)]
    have h3 : x.2 - e + e = x.2 := by ring
    have h4 : y.2 - e + e = y.2 := by ring
    rw [h3, h4]
  rw [← hM, rne53_scale]
  show dval ((flRat (x.1 * 2 ^ (x.2 - e).toNat + y.1 * 2 ^ (y.2 - e).toNat) 1).1,
      (flRat (x.1 * 2 ^ (x.2 - e).toNat + y.1 * 2 ^ (y.2 - e).toNat) 1).2 + e) = _
  unfold dval
  rw [zpow_add₀ (two_ne_zero : (2:ℚ) ≠ 0), ← mul_assoc]
  congr 1
  have h := dval_flRat (x.1 * 2 ^ (x.2 - e).toNat + y.1 * 2 ^ (y.2 - e).toNat) 1 le_rfl
  simpa using h

theorem ffloor_eq (x : ℕ × ℤ) : ffloor x = ⌊dval x⌋₊ := by
  unfold ffloor dval
  split_ifs with h
  · have h1 : ((x.2.toNat : ℤ)) = x.2 := Int.toNat_of_nonneg h
    have h2 : (x.1 : ℚ) * 2 ^ x.2 = ((x.1 * 2 ^ x.2.toNat : ℕ) : ℚ) := by
      push_cast
      rw [← zpow_natCast (2:ℚ) x.2.toNat, h1]
    rw [h2, Nat.floor_natCast]
  · push_neg at h
    have h1 : (((-x.2).toNat : ℤ)) = -x.2 := Int.toNat_of_nonneg (by omega)
    have h2 : (x.1 : ℚ) * 2 ^ x.2 = (x.1 : ℚ) / ((2 ^ (-x.2).toNat : ℕ) : ℚ) := by
      push_cast
      rw [← zpow_natCast (2:ℚ) (-x.2).toNat, h1, div_eq_mul_inv, ← zpow_neg,
        neg_neg]
    rw [h2, Nat.floor_div_nat, Nat.floor_natCast]

theorem floatProbe_ge (uid minUID maxUID minIndex maxIndex : ℕ)
    (hmi : minIndex < 2 ^ 53) :
    minIndex ≤ floatProbe uid minUID maxUID minIndex maxIndex := by
  unfold floatProbe
  rw [ffloor_eq]
  apply Nat.le_floor
  rw [dval_fadd]
  have hmi4 : dval (flN minIndex) = (minIndex : ℚ) := by
    rw [dval_flN, rne53_natCast _ hmi]
  calc (minIndex : ℚ) = rne53 (minIndex : ℚ) := (rne53_natCast _ hmi).symm
    _ ≤ rne53 (dval (flN minIndex) +
        dval (fmul (fdiv (flN (uid - minUID)) (flN (maxUID - minUID)))
          (flN (maxIndex - minIndex)))) := by
        apply rne53_mono
        rw [hmi4]
        have h := dval_nonneg (fmul (fdiv (flN (uid - minUID))
          (flN (maxUID - minUID))) (flN (maxIndex - minIndex)))
        linarith

theorem floatProbe_le (uid minUID maxUID minIndex maxIndex : ℕ)
    (hhi : uid ≤ maxUID) (hb : minUID < maxUID) (hmm : minIndex ≤ maxIndex)
    (hbig : maxIndex < 2 ^ 53) :
    floatProbe uid minUID maxUID minIndex maxIndex ≤ maxIndex := by
  unfold floatProbe
  rw [ffloor_eq]
  have hd : dval (flN (maxIndex - minIndex)) = ((maxIndex - minIndex : ℕ) : ℚ) := by
    rw [dval_flN, rne53_natCast _ (by omega)]
  have hmi4 : dval (flN minIndex) = (minIndex : ℚ) := by
    rw [dval_flN, rne53_natCast _ (by omega)]
  have hb1 : (1 : ℚ) ≤ dval (flN (maxUID - minUID)) := by
    rw [dval_flN]
    calc (1:ℚ) = rne53 1 := rne53_one.symm
      _ ≤ rne53 ((maxUID - minUID : ℕ) : ℚ) := by
          apply rne53_mono
          exact_mod_cast (by omega : 1 ≤ maxUID - minUID)
  have hbpos : (0 : ℚ) < dval (flN (maxUID - minUID)) :=
    lt_of_lt_of_le one_pos hb1
  have hysig : 1 ≤ (flN (maxUID - minUID)).1 := sig_pos_of_dval_pos hbpos
  have hrat : dval (fdiv (flN (uid - minUID)) (flN (maxUID - minUID))) ≤ 1 := by
    rw [dval_fdiv _ _ hysig]
    calc rne53 (dval (flN (uid - minUID)) / dval (flN (maxUID - minUID)))
        ≤ rne53 1 := by
          apply rne53_mono
          rw [div_le_one hbpos, dval_flN, dval_flN]
          apply rne53_mono
          exact_mod_cast (by omega : uid - minUID ≤ maxUID - minUID)
      _ = 1 := rne53_one
  have hP : dval (fmul (fdiv (flN (uid - minUID)) (flN (maxUID - minUID)))
      (flN (maxIndex - minIndex))) ≤ ((maxIndex - minIndex : ℕ) : ℚ) := by
    rw [dval_fmul]
    calc rne53 (dval (fdiv (flN (uid - minUID)) (flN (maxUID - minUID))) *
          dval (flN (maxIndex - minIndex)))
        ≤ rne53 (1 * ((maxIndex - minIndex : ℕ) : ℚ)) := by
          apply rne53_mono
          rw [hd]
          apply mul_le_mul_of_nonneg_right hrat (by positivity)
      _ = ((maxIndex - minIndex : ℕ) : ℚ) := by
          rw [one_mul, rne53_natCast _ (by omega)]
  have hS : dval (fadd (flN minIndex)
      (fmul (fdiv (flN (uid - minUID)) (flN (maxUID - minUID)))
        (flN (maxIndex - minIndex)))) ≤ ((maxIndex : ℕ) : ℚ) := by
    rw [dval_fadd]
    calc rne53 (dval (flN minIndex) +
          dval (fmul (fdiv (flN (uid - minUID)) (flN (maxUID - minUID)))
            (flN (maxIndex - minIndex))))
        ≤ rne53 ((minIndex : ℚ) + ((maxIndex - minIndex : ℕ) : ℚ)) := by
          apply rne53_mono
          rw [hmi4]
          exact add_le_add_left hP _
      _ = ((maxIndex : ℕ) : ℚ) := by
          have hsum : ((minIndex : ℚ) + ((maxIndex - minIndex : ℕ) : ℚ)) =
              ((maxIndex : ℕ) : ℚ) := by
            rw [Nat.cast_sub hmm]
            ring
          rw [hsum, rne53_natCast _ hbig]
  calc ⌊dval (fadd (flN minIndex)
        (fmul (fdiv (flN (uid - minUID)) (flN (maxUID - minUID)))
          (flN (maxIndex - minIndex))))⌋₊
      ≤ ⌊((maxIndex : ℕ) : ℚ)⌋₊ := Nat.floor_le_floor hS
    _ = maxIndex := Nat.floor_natCast _

theorem floatProbe_self (minUID maxUID minIndex maxIndex : ℕ)
    (hb : minUID < maxUID) (hmm : minIndex ≤ maxIndex)
    (hbig : maxIndex < 2 ^ 53) :
    floatProbe maxUID minUID maxUID minIndex maxIndex = maxIndex := by
  unfold floatProbe
  rw [ffloor_eq]
  have hd : dval (flN (maxIndex - minIndex)) = ((maxIndex - minIndex : ℕ) : ℚ) := by
    rw [dval_flN, rne53_natCast _ (by omega)]
  have hmi4 : dval (flN minIndex) = (minIndex : ℚ) := by
    rw [dval_flN, rne53_natCast _ (by omega)]
  have hb1 : (1 : ℚ) ≤ dval (flN (maxUID - minUID)) := by
    rw [dval_flN]
    calc (1:ℚ) = rne53 1 := rne53_one.symm
      _ ≤ rne53 ((maxUID - minUID : ℕ) : ℚ) := by
          apply rne53_mono
          exact_mod_cast (by omega : 1 ≤ maxUID - minUID)
  have hbpos : (0 : ℚ) < dval (flN (maxUID - minUID)) :=
    lt_of_lt_of_le one_pos hb1
  have hysig : 1 ≤ (flN (maxUID - minUID)).1 := sig_pos_of_dval_pos hbpos
  have hrat : dval (fdiv (flN (maxUID - minUID)) (flN (maxUID - minUID))) = 1 := by
    rw [dval_fdiv _ _ hysig, div_self (ne_of_gt hbpos), rne53_one]
  have hP : dval (fmul (fdiv (flN (maxUID - minUID)) (flN (maxUID - minUID)))
      (flN (maxIndex - minIndex))) = ((maxIndex - minIndex : ℕ) : ℚ) := by
    rw [dval_fmul, hrat, one_mul, hd, rne53_natCast _ (by omega)]
  have hS : dval (fadd (flN minIndex)
      (fmul (fdiv (flN (maxUID - minUID)) (flN (maxUID - minUID)))
        (flN (maxIndex - minIndex)))) = ((maxIndex : ℕ) : ℚ) := by
    rw [dval_fadd, hmi4, hP]
    have hsum : ((minIndex : ℚ) + ((maxIndex - minIndex : ℕ) : ℚ)) =
        ((maxIndex : ℕ) : ℚ) := by
      rw [Nat.cast_sub hmm]
      ring
    rw [hsum, rne53_natCast _ hbig]
  rw [hS, Nat.floor_natCast]

theorem floatProbe_zero (uid minUID maxUID maxIndex : ℕ)
    (h : uid - minUID = 0) :
    floatProbe uid minUID maxUID 0 maxIndex = 0 := by
  simp [floatProbe, h, flN, flRat, fdiv, fmul, fadd, ffloor]

theorem get?_some_getD {l : List ℕ} {i x : ℕ} (h : l.get? i = some x) :
    i < l.length ∧ l.getD i 0 = x := by
  have hi : i < l.length := by
    by_contra hge
    rw [List.get?_eq_getElem?, List.getElem?_eq_none (by omega)] at h
    exact absurd h (by simp)
  refine ⟨hi, ?_⟩
  rw [get?_eq_some_getD hi] at h
  exact Option.some.inj h

theorem gsnStep_ret_rank (l : List ℕ) (uid minIndex maxIndex minUID maxUID p : ℕ)
    (hp : l.Pairwise (· < ·))
    (h : gsnStep l uid minIndex maxIndex minUID maxUID = .ret p) :
    p = ltCount l uid + 1 := by
  simp only [gsnStep] at h
  set c := floatProbe uid minUID maxUID minIndex maxIndex with hcdef
  cases hget : l.get? c with
  | none =>
    rw [hget] at h
    exact absurd h (by simp)
  | some newUID =>
    rw [hget] at h
    simp only [] at h
    obtain ⟨hclen, hcd⟩ := get?_some_getD hget
    by_cases h1 : newUID = uid
    · rw [if_pos h1] at h
      have hpe : c + 1 = p := by
        have hh : StepResult.ret (c + 1) = StepResult.ret p := h
        injection hh
      have hcu : l.getD c 0 = uid := by rw [hcd, h1]
      have hcub : ltCount l uid ≤ c :=
        ltCount_le_of_le_getD l uid c hclen hp (le_of_eq hcu.symm)
      have hclb : c ≤ ltCount l uid := by
        rcases Nat.eq_zero_or_pos c with hc0 | hcpos
        · omega
        · have hstep := getD_lt_getD_of_lt l hp (show c - 1 < c by omega) hclen
          have hlt : l.getD (c - 1) 0 < uid := by omega
          have hcc := le_ltCount_of_getD_lt l uid (c - 1) (by omega) hp hlt
          omega
      omega
    · rw [if_neg h1] at h
      by_cases h2 : newUID > uid
      · rw [if_pos h2] at h
        exact absurd h (by simp)
      · rw [if_neg h2] at h
        cases hget2 : l.get? (c + 1) with
        | none =>
          rw [hget2] at h
          exact absurd h (by simp)
        | some newMinUID =>
          rw [hget2] at h
          simp only [] at h
          obtain ⟨hc1len, hcd2⟩ := get?_some_getD hget2
          by_cases h3 : newMinUID > uid
          · rw [if_pos h3] at h
            have hpe : c + 1 + 1 = p := by
              have hh : StepResult.ret (c + 1 + 1) = StepResult.ret p := h
              injection hh
            have hnlt : l.getD c 0 < uid := by omega
            have hclb : c + 1 ≤ ltCount l uid :=
              le_ltCount_of_getD_lt l uid c hclen hp hnlt
            have hcub : ltCount l uid ≤ c + 1 := by
              have hle : uid ≤ l.getD (c + 1) 0 := by omega
              exact ltCount_le_of_le_getD l uid (c + 1) hc1len hp hle
            omega
          · rw [if_neg h3] at h
            exact absurd h (by simp)

theorem gsnLoop_some_rank (l : List ℕ) (uid : ℕ) (hp : l.Pairwise (· < ·)) :
    ∀ (fuel minIndex maxIndex minUID maxUID p : ℕ),
      gsnLoop l uid fuel minIndex maxIndex minUID maxUID = some p →
      p = ltCount l uid + 1 := by
  intro fuel
  induction fuel with
  | zero =>
    intro _ _ _ _ p h
    exact absurd h (by simp [gsnLoop])
  | succ n ih =>
    intro minIndex maxIndex minUID maxUID p h
    rw [gsnLoop] at h
    cases hstep : gsnStep l uid minIndex maxIndex minUID maxUID with
    | ret q =>
      rw [hstep] at h
      have hq : q = p := Option.some.inj h
      subst hq
      exact gsnStep_ret_rank l uid minIndex maxIndex minUID maxUID q hp hstep
    | cont mi ma mu xu =>
      rw [hstep] at h
      exact ih mi ma mu xu p h
    | fail =>
      rw [hstep] at h
      exact absurd h (by simp)

theorem gsn_some_rank (l : List ℕ) (t : ℕ) (hp : l.Pairwise (· < ·)) (p : ℕ)
    (h : GetSequenceNumber l t = some p) : p = ltCount l t + 1 := by
  unfold GetSequenceNumber at h
  split_ifs at h with h0 h1 h2 h3
  · have hl : l = [] := List.length_eq_zero.mp h0
    subst hl
    have hpe : (1 : ℕ) = p := Option.some.inj h
    simp [ltCount]
    omega
  · have hpe : (1 : ℕ) = p := Option.some.inj h
    have hcc : ltCount l t = 0 := by
      have := ltCount_le_of_le_getD l t 0 (by omega) hp (le_of_lt h1)
      omega
    omega
  · have hpe : l.length + 1 = p := Option.some.inj h
    have hcc : ltCount l t = l.length := by
      have hub := ltCount_le_length l t
      have hlb := le_ltCount_of_getD_lt l t (l.length - 1) (by omega) hp h2
      omega
    omega
  · have hpe : (1 : ℕ) = p := Option.some.inj h
    rw [h3, show (1 : ℕ) - 1 = 0 by norm_num] at h2
    have hcc : ltCount l t = 0 := by
      have := ltCount_le_of_le_getD l t 0 (by omega) hp (by omega)
      omega
    omega
  · exact gsnLoop_some_rank l t hp _ _ _ _ _ p h

theorem gsn_isSome_rank (l : List ℕ) (t : ℕ) (hp : l.Pairwise (· < ·))
    (hterm : (GetSequenceNumber l t).isSome) :
    GetSequenceNumber l t = some (ltCount l t + 1) := by
  obtain ⟨p, hpe⟩ := Option.isSome_iff_exists.mp hterm
  rw [hpe, gsn_some_rank l t hp p hpe]

theorem gsn_empty (t : ℕ) : GetSequenceNumber [] t = some 1 := rfl

theorem gsn_lt_head (l : List ℕ) (t : ℕ) (h0 : l ≠ [])
    (h : t < l.getD 0 0) : GetSequenceNumber l t = some 1 := by
  have hl : l.length ≠ 0 := fun he => h0 (List.length_eq_zero.mp he)
  unfold GetSequenceNumber
  rw [if_neg hl, if_pos h]

theorem gsn_gt_last (l : List ℕ) (t : ℕ) (h0 : l ≠ [])
    (hp : l.Pairwise (· < ·)) (h : l.getD (l.length - 1) 0 < t) :
    GetSequenceNumber l t = some (l.length + 1) := by
  have hl : l.length ≠ 0 := fun he => h0 (List.length_eq_zero.mp he)
  have hhead : l.getD 0 0 ≤ l.getD (l.length - 1) 0 := by
    rcases Nat.eq_zero_or_pos (l.length - 1) with he | hpos
    · rw [he]
    · exact le_of_lt (getD_lt_getD_of_lt l hp (by omega) (by omega))
  unfold GetSequenceNumber
  rw [if_neg hl, if_neg (by omega), if_pos h]

theorem gsnLoop_eq_of_pos (l : List ℕ) (uid fuel mi ma mu xu : ℕ)
    (h : 0 < fuel) :
    gsnLoop l uid fuel mi ma mu xu =
      match gsnStep l uid mi ma mu xu with
      | .ret p => some p
      | .cont mi' ma' mu' xu' => gsnLoop l uid (fuel - 1) mi' ma' mu' xu'
      | .fail => none := by
  rcases fuel with _ | n
  · omega
  · rw [gsnLoop]
    norm_num

theorem gsn_le_head (l : List ℕ) (t : ℕ) (h0 : l ≠ [])
    (hp : l.Pairwise (· < ·)) (h : t ≤ l.getD 0 0) :
    GetSequenceNumber l t = some 1 := by
  rcases lt_or_eq_of_le h with hlt | heq
  · exact gsn_lt_head l t h0 hlt
  · have hl : l.length ≠ 0 := fun he => h0 (List.length_eq_zero.mp he)
    rcases Nat.lt_or_ge l.length 2 with hlen1 | hlen2
    · have h1 : l.length = 1 := by omega
      unfold GetSequenceNumber
      rw [if_neg hl]
      by_cases hc : t < l.getD 0 0
      · rw [if_pos hc]
      · rw [if_neg hc,
          if_neg (by rw [h1, show (1 : ℕ) - 1 = 0 by norm_num]; omega),
          if_pos h1]
    · have hlast : l.getD 0 0 ≤ l.getD (l.length - 1) 0 :=
        le_of_lt (getD_lt_getD_of_lt l hp (by omega) (by omega))
      unfold GetSequenceNumber
      rw [if_neg hl, if_neg (by omega), if_neg (by omega), if_neg (by omega)]
      have hprobe : floatProbe t (l.getD 0 0) (l.getD (l.length - 1) 0) 0
          (l.length - 1) = 0 := floatProbe_zero _ _ _ _ (by omega)
      have hstep : gsnStep l t 0 (l.length - 1) (l.getD 0 0)
          (l.getD (l.length - 1) 0) = .ret (0 + 1) := by
        simp only [gsnStep, hprobe,
          get?_eq_some_getD (show 0 < l.length by omega)]
        rw [if_pos heq.symm]
      rw [gsnLoop_eq_of_pos _ _ _ _ _ _ _ (by omega), hstep]

theorem gsnLoop_none_of_fix (l : List ℕ) (uid mi ma mu xu : ℕ)
    (h : gsnStep l uid mi ma mu xu = .cont mi ma mu xu) :
    ∀ fuel, gsnLoop l uid fuel mi ma mu xu = none := by
  intro fuel
  induction fuel with
  | zero => rfl
  | succ n ih =>
    rw [gsnLoop, h]
    exact ih

theorem gsnLoop_isSome_mono (l : List ℕ) (uid : ℕ) :
    ∀ (f1 f2 mi ma mu xu : ℕ), f1 ≤ f2 →
      (gsnLoop l uid f1 mi ma mu xu).isSome →
      (gsnLoop l uid f2 mi ma mu xu).isSome := by
  intro f1
  induction f1 with
  | zero =>
    intro f2 mi ma mu xu _ hs
    exact absurd hs (by simp [gsnLoop])
  | succ n ih =>
    intro f2 mi ma mu xu hle hs
    rcases f2 with _ | m
    · omega
    · cases hstep : gsnStep l uid mi ma mu xu with
      | ret p =>
        rw [gsnLoop, hstep]
        simp
      | cont mi' ma' mu' xu' =>
        rw [gsnLoop, hstep] at hs
        rw [gsnLoop, hstep]
        exact ih m mi' ma' mu' xu' (by omega) hs
      | fail =>
        rw [gsnLoop, hstep] at hs
        exact absurd hs (by simp)

theorem gsnStep_spec (l : List ℕ) (uid minIndex maxIndex minUID maxUID : ℕ)
    (hp : l.Pairwise (· < ·))
    (hmm : minIndex < maxIndex) (hml : maxIndex < l.length)
    (hbig : maxIndex < 2 ^ 53)
    (hminU : l.getD minIndex 0 = minUID) (hmaxU : l.getD maxIndex 0 = maxUID)
    (hlo : minUID ≤ uid) (hhi : uid ≤ maxUID) :
    gsnStep l uid minIndex maxIndex minUID maxUID =
        .ret (ltCount l uid + 1) ∨
      ∃ mi ma mu xu,
        gsnStep l uid minIndex maxIndex minUID maxUID = .cont mi ma mu xu ∧
        mi < ma ∧ ma < l.length ∧ l.getD mi 0 = mu ∧ l.getD ma 0 = xu ∧
        mu ≤ uid ∧ uid ≤ xu ∧ minIndex ≤ mi ∧ ma ≤ maxIndex ∧
        (ma - mi < maxIndex - minIndex ∨
          (mi = minIndex ∧ ma = maxIndex ∧ mu = minUID ∧ xu = maxUID)) := by
  have hb : minUID < maxUID := by
    have h := getD_lt_getD_of_lt l hp hmm hml
    rw [hminU, hmaxU] at h
    exact h
  simp only [gsnStep]
  set c := floatProbe uid minUID maxUID minIndex maxIndex with hc
  have hcmin : minIndex ≤ c := floatProbe_ge _ _ _ _ _ (by omega)
  have hcle : c ≤ maxIndex :=
    floatProbe_le _ _ _ _ _ hhi hb (le_of_lt hmm) hbig
  have hclen : c < l.length := lt_of_le_of_lt hcle hml
  have hgc : l.get? c = some (l.getD c 0) := get?_eq_some_getD hclen
  split
  · next heq => rw [hgc] at heq; exact absurd heq (by simp)
  · next newUID heq =>
    rw [hgc] at heq
    have hnv : newUID = l.getD c 0 := (Option.some.inj heq).symm
    split_ifs with h1 h2
    · left
      have hcu : l.getD c 0 = uid := by rw [← hnv, h1]
      have hcub : ltCount l uid ≤ c :=
        ltCount_le_of_le_getD l uid c hclen hp (le_of_eq hcu.symm)
      have hclb : c ≤ ltCount l uid := by
        rcases Nat.eq_zero_or_pos c with hc0 | hcpos
        · omega
        · have hstep := getD_lt_getD_of_lt l hp (show c - 1 < c by omega) hclen
          have hlt : l.getD (c - 1) 0 < uid := by omega
          have hcc := le_ltCount_of_getD_lt l uid (c - 1) (by omega) hp hlt
          omega
      have hce : c = ltCount l uid := le_antisymm hclb hcub
      rw [hce]
    · right
      refine ⟨minIndex, c, minUID, newUID, rfl, ?_, hclen, hminU, hnv.symm,
        hlo, le_of_lt h2, le_refl _, hcle, ?_⟩
      · have hne : minIndex ≠ c := by
          intro he
          rw [he] at hminU
          omega
        omega
      · rcases eq_or_lt_of_le hcle with he | hlt
        · right
          refine ⟨rfl, he, rfl, ?_⟩
          rw [hnv, he, hmaxU]
        · left
          omega
    · have hnlt : newUID < uid := by omega
      have hcmax : c < maxIndex := by
        rcases eq_or_lt_of_le hcle with he | hl
        · exfalso
          rw [he, hmaxU] at hnv
          omega
        · exact hl
      have hc1len : c + 1 < l.length := by omega
      have hgc1 : l.get? (c + 1) = some (l.getD (c + 1) 0) :=
        get?_eq_some_getD hc1len
      split
      · next heq2 => rw [hgc1] at heq2; exact absurd heq2 (by simp)
      · next newMinUID heq2 =>
        rw [hgc1] at heq2
        have hnv2 : newMinUID = l.getD (c + 1) 0 := (Option.some.inj heq2).symm
        split_ifs with h3
        · left
          have hclb : c + 1 ≤ ltCount l uid := by
            have hlt : l.getD c 0 < uid := by omega
            exact le_ltCount_of_getD_lt l uid c hclen hp hlt
          have hcub : ltCount l uid ≤ c + 1 := by
            have hle : uid ≤ l.getD (c + 1) 0 := by omega
            exact ltCount_le_of_le_getD l uid (c + 1) hc1len hp hle
          have hce : c + 1 = ltCount l uid := le_antisymm hclb hcub
          rw [hce]
        · right
          refine ⟨c + 1, maxIndex, newMinUID, maxUID, rfl, ?_, hml, hnv2.symm,
            hmaxU, by omega, hhi, by omega, le_refl _, ?_⟩
          · rcases eq_or_lt_of_le (show c + 1 ≤ maxIndex by omega) with he | hl
            · exfalso
              rw [he, hmaxU] at hnv2
              have huid : uid = maxUID := by omega
              rw [huid] at hc
              have hself := floatProbe_self minUID maxUID minIndex maxIndex hb
                (le_of_lt hmm) hbig
              omega
            · exact hl
          · left
            omega

theorem gsnLoop_fuel_adequate (l : List ℕ) (uid : ℕ)
    (hp : l.Pairwise (· < ·)) :
    ∀ (fuel minIndex maxIndex minUID maxUID : ℕ),
      minIndex < maxIndex → maxIndex < l.length → maxIndex < 2 ^ 53 →
      l.getD minIndex 0 = minUID → l.getD maxIndex 0 = maxUID →
      minUID ≤ uid → uid ≤ maxUID →
      (gsnLoop l uid fuel minIndex maxIndex minUID maxUID).isSome →
      (gsnLoop l uid (maxIndex - minIndex + 1) minIndex maxIndex minUID
        maxUID).isSome := by
  intro fuel
  induction fuel with
  | zero =>
    intro mi ma mu xu hmm hml hbig hminU hmaxU hlo hhi hs
    exact absurd hs (by simp [gsnLoop])
  | succ n ih =>
    intro mi ma mu xu hmm hml hbig hminU hmaxU hlo hhi hs
    rcases gsnStep_spec l uid mi ma mu xu hp hmm hml hbig hminU hmaxU hlo hhi
      with hret | ⟨mi', ma', mu', xu', hcont, hmm', hml', hmu', hxu', hlo',
        hhi', hge, hle, hnarrow⟩
    · rw [gsnLoop_eq_of_pos _ _ _ _ _ _ _ (by omega), hret]
      simp
    · rw [gsnLoop, hcont] at hs
      rcases hnarrow with hn | ⟨he1, he2, he3, he4⟩
      · have hbig' : ma' < 2 ^ 53 := by omega
        have hih := ih mi' ma' mu' xu' hmm' hml' hbig' hmu' hxu' hlo' hhi' hs
        rw [gsnLoop_eq_of_pos _ _ _ _ _ _ _ (by omega), hcont]
        exact gsnLoop_isSome_mono l uid (ma' - mi' + 1) (ma - mi + 1 - 1)
          mi' ma' mu' xu' (by omega) hih
      · rw [he1, he2, he3, he4] at hs
        exact ih mi ma mu xu hmm hml hbig hminU hmaxU hlo hhi hs

/-- C1 (amended): for every strictly ascending duplicate-free identifier
sequence `U` and every target `t`, `GetSequenceNumber` returns `1` if `U`
is empty or `t ≤ U[0]`; returns `len(U)+1` if `t > U[len(U)-1]`; and
returns `1` on a single-element sequence when neither boundary rule
applies (`t = U[0]`).  In the remaining, interior cases the float64
interpolation loop need not return at all (see the counterexample); but
whenever it does return a position `p`, `p` is the unique 1-based
position with `U[p-2] < t ≤ U[p-1]`. -/
theorem getSequenceNumber_position_correct (l : List ℕ) (t : ℕ)
    (hsorted : l.Pairwise (· < ·)) :
    (l = [] → GetSequenceNumber l t = some 1) ∧
    (l ≠ [] → t ≤ l.getD 0 0 → GetSequenceNumber l t = some 1) ∧
    (l ≠ [] → l.getD (l.length - 1) 0 < t →
      GetSequenceNumber l t = some (l.length + 1)) ∧
    (l.length = 1 → t = l.getD 0 0 → GetSequenceNumber l t = some 1) ∧
    (∀ p, GetSequenceNumber l t = some p →
      ∀ q, 2 ≤ q → q ≤ l.length → l.getD (q - 2) 0 < t →
        t ≤ l.getD (q - 1) 0 → p = q) := by
  refine ⟨?_, ?_, ?_, ?_, ?_⟩
  · rintro rfl
    exact gsn_empty t
  · intro h0 hle
    exact gsn_le_head l t h0 hsorted hle
  · intro h0 hlt
    exact gsn_gt_last l t h0 hsorted hlt
  · intro h1 heq
    refine gsn_le_head l t ?_ hsorted (le_of_eq heq)
    intro he
    rw [he] at h1
    simp at h1
  · intro p hp q h2q hqlen hlt hle
    have hrank := gsn_some_rank l t hsorted p hp
    have ha := le_ltCount_of_getD_lt l t (q - 2) (by omega) hsorted hlt
    have hb := ltCount_le_of_le_getD l t (q - 1) (by omega) hsorted hle
    omega

/-- Witness for C1 at the concrete index `[5, 10, 15]` with target `5`:
the low-boundary rule gives sequence number `1`. -/
theorem getSequenceNumber_position_correct_witness :
    GetSequenceNumber [5, 10, 15] 5 = some 1 :=
  (getSequenceNumber_position_correct [5, 10, 15] 5 (by decide)).2.1
    (by decide) (by decide)

/-- C1 counterexample: on the strictly ascending index
`[0, 2^53, 2^53+1]` with the interior target `2^53`, the conversion
`float64(2^53+1)` rounds (tie, to even) to `2^53`, the interpolation
ratio becomes exactly `1.0`, and the probe pins at the upper index: the
iteration repeats the loop state exactly, the loop never returns with
any amount of fuel, and `GetSequenceNumber` never produces the claimed
position `2` — the Go function loops forever. -/
theorem getSequenceNumber_interior_diverges :
    List.Pairwise (· < ·) [0, 2 ^ 53, 2 ^ 53 + 1] ∧
    gsnStep [0, 2 ^ 53, 2 ^ 53 + 1] (2 ^ 53) 0 2 0 (2 ^ 53 + 1) =
      .cont 0 2 0 (2 ^ 53 + 1) ∧
    (∀ fuel, gsnLoop [0, 2 ^ 53, 2 ^ 53 + 1] (2 ^ 53) fuel 0 2 0
      (2 ^ 53 + 1) = none) ∧
    GetSequenceNumber [0, 2 ^ 53, 2 ^ 53 + 1] (2 ^ 53) = none :=
  ⟨by decide, by decide,
    gsnLoop_none_of_fix _ _ _ _ _ _ (by decide), by decide⟩

/-- C2 counterexample: the claim says the lower bound strictly advances
on every iteration that does not return.  On the index
`[0, 97, 98, 99, 100]` with target `50` the first iteration probes index
`2` (value `98 > 50`) and continues with the lower bound unchanged
(`minIndex` stays `0`, `minUID` stays `0`): only the upper bound moved. -/
theorem gsnStep_lower_bound_can_stall :
    gsnStep [0, 97, 98, 99, 100] 50 0 4 0 100 =
      StepResult.cont 0 2 0 98 := by decide

/-- C2 (amended): on a strictly ascending duplicate-free index with the
target inside the range handled by the loop (index positions below
`2^53`, which contains every uint32 index of the Go code), (a) an
iteration satisfying the loop invariant never probes out of bounds and
either returns or continues with the invariant re-established on a
never-wider interval — strictly narrower unless the iteration repeats
its entire state exactly; (b) fuel `maxIndex - minIndex + 1` therefore
decides termination: a loop that terminates with any amount of fuel
terminates within that many iterations; and (c) the loop need not
terminate: at `uids = [0, 2^53, 2^53+1]`, target `2^53`, float64
rounding pins the probe at the upper index and the state repeats
forever. -/
theorem gsn_loop_narrows_or_repeats :
    (∀ (l : List ℕ) (uid minIndex maxIndex minUID maxUID : ℕ),
        l.Pairwise (· < ·) → minIndex < maxIndex → maxIndex < l.length →
        maxIndex < 2 ^ 53 →
        l.getD minIndex 0 = minUID → l.getD maxIndex 0 = maxUID →
        minUID ≤ uid → uid ≤ maxUID →
        gsnStep l uid minIndex maxIndex minUID maxUID ≠ .fail ∧
        (∀ nmi nma nmu nxu,
          gsnStep l uid minIndex maxIndex minUID maxUID =
            .cont nmi nma nmu nxu →
          nmi < nma ∧ nma < l.length ∧ l.getD nmi 0 = nmu ∧
          l.getD nma 0 = nxu ∧ nmu ≤ uid ∧ uid ≤ nxu ∧
          minIndex ≤ nmi ∧ nma ≤ maxIndex ∧
          (nma - nmi < maxIndex - minIndex ∨
            (nmi = minIndex ∧ nma = maxIndex ∧ nmu = minUID ∧
              nxu = maxUID)))) ∧
    (∀ (l : List ℕ) (uid minIndex maxIndex minUID maxUID : ℕ),
        l.Pairwise (· < ·) → minIndex < maxIndex → maxIndex < l.length →
        maxIndex < 2 ^ 53 →
        l.getD minIndex 0 = minUID → l.getD maxIndex 0 = maxUID →
        minUID ≤ uid → uid ≤ maxUID →
        (∃ fuel,
          (gsnLoop l uid fuel minIndex maxIndex minUID maxUID).isSome) →
        (gsnLoop l uid (maxIndex - minIndex + 1) minIndex maxIndex minUID
          maxUID).isSome) ∧
    (∀ fuel, gsnLoop [0, 2 ^ 53, 2 ^ 53 + 1] (2 ^ 53) fuel 0 2 0
      (2 ^ 53 + 1) = none) := by
  refine ⟨?_, ?_, gsnLoop_none_of_fix _ _ _ _ _ _ (by decide)⟩
  · intro l uid minIndex maxIndex minUID maxUID hp hmm hml hbig hminU hmaxU
      hlo hhi
    rcases gsnStep_spec l uid minIndex maxIndex minUID maxUID hp hmm hml hbig
        hminU hmaxU hlo hhi with hret | ⟨mi, ma, mu, xu, hcont, hmm2, hml2,
        hmu2, hxu2, hlo2, hhi2, hge2, hle2, hnarrow⟩
    · rw [hret]
      refine ⟨by simp, ?_⟩
      intro nmi nma nmu nxu hcc
      simp at hcc
    · rw [hcont]
      refine ⟨by simp, ?_⟩
      intro nmi nma nmu nxu hcc
      injection hcc with e1 e2 e3 e4
      subst e1
      subst e2
      subst e3
      subst e4
      exact ⟨hmm2, hml2, hmu2, hxu2, hlo2, hhi2, hge2, hle2, hnarrow⟩
  · rintro l uid minIndex maxIndex minUID maxUID hp hmm hml hbig hminU hmaxU
      hlo hhi ⟨fuel, hs⟩
    exact gsnLoop_fuel_adequate l uid hp fuel minIndex maxIndex minUID maxUID
      hmm hml hbig hminU hmaxU hlo hhi hs

/-- Witness for C2 at the concrete index `[2, 4, 6]` with target `5`:
the first iteration does not fail, and the loop, which terminates with
fuel 3, indeed terminates within `maxIndex - minIndex + 1` iterations;
the repeating-state conjunct evaluated at fuel 0. -/
theorem gsn_loop_narrows_or_repeats_witness :
    gsnStep [2, 4, 6] 5 0 2 2 6 ≠ .fail ∧
    (gsnLoop [2, 4, 6] 5 (2 - 0 + 1) 0 2 2 6).isSome ∧
    gsnLoop [0, 2 ^ 53, 2 ^ 53 + 1] (2 ^ 53) 0 0 2 0 (2 ^ 53 + 1) = none :=
  ⟨(gsn_loop_narrows_or_repeats.1 [2, 4, 6] 5 0 2 2 6 (by decide) (by decide)
      (by decide) (by decide) (by decide) (by decide) (by decide)
      (by decide)).1,
    gsn_loop_narrows_or_repeats.2.1 [2, 4, 6] 5 0 2 2 6 (by decide)
      (by decide) (by decide) (by decide) (by decide) (by decide) (by decide)
      (by decide) ⟨3, by decide⟩,
    gsn_loop_narrows_or_repeats.2.2 0⟩

/-! ## The mailbox data model

The message entity, the external message store (`store.Folder`) and the
mailbox cache, embedded from `email/mailbox.go`.  The store and the
codec are external collaborators: they are modelled from the spec
(§2, §6), with stored bytes represented as `Option Bitmessage` so that
`none` stands for a blob the codec cannot decode. -/

/-- Mail metadata of a message (`email.ImapData`). -/
structure ImapData where
  uid : ℕ
  sequenceNumber : ℕ
  flags : ℕ
  timeReceived : ℕ
deriving DecidableEq

/-- A message entity (`email.Bitmessage`), reduced to the fields the
mailbox engine reads: mail metadata, the acknowledgment token, the
delivery state's acknowledgment-received bit, and the payload-kind tag
returned by `Message.Encoding()`. -/
structure Bitmessage where
  imapData : ImapData
  ack : ℕ
  ackReceived : Bool
  encoding : ℕ
deriving DecidableEq

/-- Stored bytes.  `Modelled from the spec:` the codec (§2) is external;
a blob is either the serialization of a message or undecodable (`none`). -/
abbrev Bytes := Option Bitmessage

/-- `Modelled from the spec:` `DecodeBitmessage` — codec decode (§6). -/
def DecodeBitmessage (b : Bytes) : Option Bitmessage := b

/-- `Modelled from the spec:` `Bitmessage.Serialize` — codec encode
(§6).  The stored form does not carry the identifier or the sequence
number (they are re-derived on read, spec §3). -/
def serializeBM (b : Bitmessage) : Bytes :=
  some { b with imapData := { b.imapData with uid := 0, sequenceNumber := 0 } }

/-- One keyed record of the message store. -/
structure Entry where
  id : ℕ
  suffix : ℕ
  data : Bytes
deriving DecidableEq

/-- `Modelled from the spec:` the external message store `store.Folder`
(§2, §6): append/delete keyed byte-blob storage ordered by identifier
ascending, with a next-identifier query.  `failInsertNew` injects a
store I/O failure on `InsertNewMessage`. -/
structure Folder where
  entries : List Entry
  nextId : ℕ
  failInsertNew : Bool
deriving DecidableEq

/-- `Modelled from the spec:` `store.Folder.GetMessage` — point lookup;
`none` is the store's not-found error. -/
def Folder.getMessage (f : Folder) (id : ℕ) : Option (ℕ × Bytes) :=
  (f.entries.find? (fun e => e.id == id)).map (fun e => (e.suffix, e.data))

/-- `Modelled from the spec:` `store.Folder.InsertNewMessage` —
insertion with a store-assigned identifier; `none` is a store I/O
failure. -/
def Folder.insertNewMessage (f : Folder) (data : Bytes) (suffix : ℕ) :
    Option (ℕ × Folder) :=
  if f.failInsertNew then none
  else some (f.nextId,
    { f with entries := f.entries ++ [⟨f.nextId, suffix, data⟩],
             nextId := f.nextId + 1 })

/-- Insertion into the identifier-ordered entry list. -/
def insertEntry (e : Entry) : List Entry → List Entry
  | [] => [e]
  | x :: xs => if e.id < x.id then e :: x :: xs else x :: insertEntry e xs

/-- `Modelled from the spec:` `store.Folder.InsertMessage` — insertion
at an explicit identifier; fails (`none`) on an identifier collision
(§7: store-detected identifier collision). -/
def Folder.insertMessage (f : Folder) (id : ℕ) (data : Bytes) (suffix : ℕ) :
    Option Folder :=
  if f.entries.any (fun e => e.id == id) then none
  else some { f with entries := insertEntry ⟨id, suffix, data⟩ f.entries,
                     nextId := max f.nextId (id + 1) }

/-- `Modelled from the spec:` `store.Folder.DeleteMessage` — deletion by
identifier (removing nothing when the identifier is absent). -/
def Folder.deleteMessage (f : Folder) (id : ℕ) : Option Folder :=
  some { f with entries := f.entries.filter (fun e => e.id != id) }

/-- `Modelled from the spec:` the entries visited by
`store.Folder.ForEachMessage(low, high, suffix, …)` — ordered
enumeration within an identifier range (`high = 0` meaning unbounded)
of the records carrying the given suffix. -/
def Folder.scan (f : Folder) (low high suffix : ℕ) : List Entry :=
  f.entries.filter (fun e =>
    decide (low ≤ e.id) && (high == 0 || decide (e.id ≤ high)) &&
      e.suffix == suffix)

/-- The mailbox cache (`email.mailbox`): the backing store handle, the
optional subfolder membership predicate, the drafts flag, and the
cached index and statistics guarded by the RWMutex (locking is not
modelled; public operations are embedded as whole atomic steps). -/
structure Mbox where
  mbox : Folder
  sub : Option (Bitmessage → Bool)
  drafts : Bool
  uids : List ℕ
  numRecent : ℕ
  numUnseen : ℕ
  nextUID : ℕ

/-- The subfolder membership test: `box.sub == nil || box.sub(entry)`. -/
def subOK (sub : Option (Bitmessage → Bool)) (b : Bitmessage) : Bool :=
  match sub with
  | none => true
  | some f => f b

/-- `mailbox.decodeBitmessageForImap`'s decoration of a decoded message
with its identifier and sequence number. -/
def decorate (b : Bitmessage) (uid seqno : ℕ) : Bitmessage :=
  { b with imapData := { b.imapData with uid := uid, sequenceNumber := seqno } }

/-- `types.FlagSeen` of the imap-server library. -/
def FlagSeen : ℕ := 1

/-- `types.FlagRecent` of the imap-server library. -/
def FlagRecent : ℕ := 32

/-- `types.Flags.HasFlags`: `flags&f == f`. -/
def hasFlags (flags f : ℕ) : Bool := flags &&& f == f

/-- The scan of `mailbox.refresh` (the `ForEachMessage` callback at
lines 173-188): count recent/unseen and accumulate identifiers; a
decode failure makes the callback return the error built by
`imapLog.Errorf`, which aborts the enumeration with the counts
accumulated so far (the `Bool` component records the abort). -/
def refreshLoop (sub : Option (Bitmessage → Bool)) :
    List Entry → ℕ → ℕ → List ℕ → Bool × ℕ × ℕ × List ℕ
  | [], r, u, ids => (false, r, u, ids)
  | e :: rest, r, u, ids =>
    match DecodeBitmessage e.data with
    | none => (true, r, u, ids)
    | some entry =>
      if subOK sub entry then
        refreshLoop sub rest
          (if hasFlags entry.imapData.flags FlagRecent then r + 1 else r)
          (if hasFlags entry.imapData.flags FlagSeen then u else u + 1)
          (ids ++ [e.id])
      else refreshLoop sub rest r u ids

/-- `mailbox.refresh` (lines 162-202): set the next-identifier hint,
zero the counts, scan every stored message, and on success install the
sorted identifier list; on a decode failure return the error with the
partially accumulated counts installed and `uids` untouched.  Counts are
naturals; the Go `uint32` wrap is unreachable for counts bounded by the
message count. -/
def refresh (box : Mbox) : Option String × Mbox :=
  let box1 := { box with nextUID := box.mbox.nextId % 4294967296,
                         numRecent := 0, numUnseen := 0 }
  match refreshLoop box.sub (box.mbox.scan 0 0 2) 0 0 [] with
  | (true, r, u, _) =>
      (some "failed to decode message",
        { box1 with numRecent := r, numUnseen := u })
  | (false, r, u, ids) =>
      (none, { box1 with numRecent := r, numUnseen := u,
                         uids := List.insertionSort (· ≤ ·) ids })

/-- The scan of `mailbox.getRange` (the callback at lines 349-364): a
decode failure is logged and the entry skipped; surviving entries are
decorated with incrementing sequence numbers and filtered by the
membership predicate. -/
def getRangeLoop (sub : Option (Bitmessage → Bool)) (startSequence : ℕ) :
    List Entry → ℕ → List Bitmessage
  | [], _ => []
  | e :: rest, i =>
    match DecodeBitmessage e.data with
    | none => getRangeLoop sub startSequence rest i
    | some b =>
      let bm := decorate b e.id (startSequence + i)
      if subOK sub bm then bm :: getRangeLoop sub startSequence rest (i + 1)
      else getRangeLoop sub startSequence rest i

/-- `mailbox.getRange` (lines 345-369). -/
def getRange (box : Mbox) (startUID endUID startSequence endSequence : ℕ) :
    List Bitmessage :=
  getRangeLoop box.sub startSequence (box.mbox.scan startUID endUID 2) 0

/-- `mailbox.bmsgByUID` (lines 287-305). -/
def bmsgByUID (box : Mbox) (uid : ℕ) : Option Bitmessage :=
  match GetSequenceNumber box.uids uid with
  | none => none
  | some seqno =>
    if seqno > box.uids.length then none
    else if box.uids.getD (seqno - 1) 0 ≠ uid then none
    else
      match box.mbox.getMessage uid with
      | none => none
      | some (suffix, msg) =>
        if suffix ≠ 2 then none
        else
          match DecodeBitmessage msg with
          | none => none
          | some b => some (decorate b uid seqno)

/-- `mailbox.messages` (line 244): the externally observable count. -/
def messagesCount (box : Mbox) : ℕ := box.uids.length

/-- `mailbox.bitmessageBySequenceNumber` (lines 258-265). -/
def bitmessageBySequenceNumber (box : Mbox) (seqno : ℕ) : Option Bitmessage :=
  if seqno < 1 ∨ seqno > messagesCount box then none
  else bmsgByUID box (box.uids.getD (seqno - 1) 0)

/-- `mailbox.lastBitmessage` (lines 333-340). -/
def lastBitmessage (box : Mbox) : Option Bitmessage :=
  if messagesCount box = 0 then none
  else bmsgByUID box (box.uids.getD (box.uids.length - 1) 0)

/-- `mailbox.getSince` (lines 374-376). -/
def getSince (box : Mbox) (startUID startSequence : ℕ) : List Bitmessage :=
  getRange box startUID (box.uids.getD (box.uids.length - 1) 0)
    startSequence (messagesCount box)

/-- `mailbox.bitmessagesByUIDRange` (lines 379-387).  A `none` from
`GetSequenceNumber` is an identifier search that never returns: the Go
code then never reaches the range scan. -/
def bitmessagesByUIDRange (box : Mbox) (start stop : ℕ) : List Bitmessage :=
  match GetSequenceNumber box.uids start, GetSequenceNumber box.uids stop with
  | some startSequence, some endSequence =>
      if startSequence > endSequence then []
      else getRange box start stop startSequence endSequence
  | _, _ => []

/-- `mailbox.bitmessagesSinceUID` (lines 390-393). -/
def bitmessagesSinceUID (box : Mbox) (start : ℕ) : List Bitmessage :=
  match GetSequenceNumber box.uids start with
  | some startSequence => getSince box start startSequence
  | none => []

/-- `mailbox.bitmessagesBySequenceRange` (lines 397-405). -/
def bitmessagesBySequenceRange (box : Mbox) (start stop : ℕ) :
    List Bitmessage :=
  if start < 1 ∨ start > messagesCount box ∨ stop < 1 ∨
      stop > messagesCount box ∨ stop < start then []
  else getRange box (box.uids.getD (start - 1) 0) (box.uids.getD (stop - 1) 0)
    start stop

/-- `mailbox.bitmessagesSinceSequenceNumber` (lines 409-415). -/
def bitmessagesSinceSequenceNumber (box : Mbox) (start : ℕ) :
    List Bitmessage :=
  if start < 1 ∨ start > messagesCount box then []
  else getSince box (box.uids.getD (start - 1) 0) start

/-- A bound of a `types.SequenceRange`: the literal `*`, the empty
string (no bound), a parsed value, or a string `Value()` fails on. -/
inductive SeqVal where
  | last
  | noVal
  | val (n : ℕ)
  | bad
deriving DecidableEq

/-- `types.SequenceNumber.Last`. -/
def SeqVal.isLast : SeqVal → Bool
  | .last => true
  | _ => false

/-- `types.SequenceNumber.Nil`. -/
def SeqVal.isNil : SeqVal → Bool
  | .noVal => true
  | _ => false

/-- `types.SequenceNumber.Value`: `none` is the parse error. -/
def SeqVal.value : SeqVal → Option ℕ
  | .val n => some n
  | _ => none

/-- A `types.SequenceRange`. -/
structure MsgRange where
  min : SeqVal
  max : SeqVal
deriving DecidableEq

/-- A `types.SequenceSet`. -/
abbrev SequenceSet := List MsgRange

/-- The range loop of `mailbox.bitmessageSetByUID` (lines 426-464),
with the accumulated result as an explicit argument.  Elements are
`Option`s because Go appends possibly-nil pointers for single-message
ranges. -/
def setByUIDLoop (box : Mbox) :
    List MsgRange → List (Option Bitmessage) → List (Option Bitmessage)
  | [], msgs => msgs
  | r :: rest, msgs =>
    if r.min.isLast then setByUIDLoop box rest (msgs ++ [lastBitmessage box])
    else
      match r.min.value with
      | none => msgs
      | some start =>
        if r.max.isNil then
          setByUIDLoop box rest (msgs ++ [bmsgByUID box start])
        else if r.max.isLast then
          setByUIDLoop box rest
            (msgs ++ (bitmessagesSinceUID box start).map some)
        else
          match r.max.value with
          | none => msgs
          | some stop =>
            setByUIDLoop box rest
              (msgs ++ (bitmessagesByUIDRange box start stop).map some)

/-- `mailbox.bitmessageSetByUID` (lines 418-466). -/
def bitmessageSetByUID (box : Mbox) (s : SequenceSet) :
    List (Option Bitmessage) :=
  if messagesCount box = 0 then [] else setByUIDLoop box s []

/-- The range loop of `mailbox.bitmessageSetBySequenceNumber` (lines
478-516).  Note the source converts the validated sequence number
`startIndex` into the identifier `start := uint32(box.uids[startIndex-1])`
and then passes that identifier to the sequence-number queries. -/
def setBySeqLoop (box : Mbox) :
    List MsgRange → List (Option Bitmessage) → List (Option Bitmessage)
  | [], msgs => msgs
  | r :: rest, msgs =>
    if r.min.isLast then setBySeqLoop box rest (msgs ++ [lastBitmessage box])
    else
      match r.min.value with
      | none => msgs
      | some startIndex =>
        if startIndex < 1 ∨ startIndex > messagesCount box then msgs
        else
          let start := box.uids.getD (startIndex - 1) 0 % 4294967296
          if r.max.isNil then
            setBySeqLoop box rest
              (msgs ++ [bitmessageBySequenceNumber box start])
          else if r.max.isLast then
            setBySeqLoop box rest
              (msgs ++ (bitmessagesSinceSequenceNumber box start).map some)
          else
            match r.max.value with
            | none => msgs
            | some stop =>
              setBySeqLoop box rest
                (msgs ++ (bitmessagesBySequenceRange box start stop).map some)

/-- `mailbox.bitmessageSetBySequenceNumber` (lines 470-519). -/
def bitmessageSetBySequenceNumber (box : Mbox) (s : SequenceSet) :
    List (Option Bitmessage) :=
  if messagesCount box = 0 then [] else setBySeqLoop box s []

/-- `mailbox.saveBitmessage` (lines 623-668). -/
def saveBitmessage (box : Mbox) (msg : Bitmessage) : Option String × Mbox :=
  let encode := serializeBM msg
  if msg.imapData.uid = 0 then
    match box.mbox.insertNewMessage encode msg.encoding with
    | none => (some "insert failed", box)
    | some (_, f') => refresh { box with mbox := f' }
  else
    match box.mbox.deleteMessage msg.imapData.uid with
    | none => (some "delete failed", box)
    | some f1 =>
      match f1.getMessage msg.imapData.uid with
      | some _ => (some "Unable to save.", { box with mbox := f1 })
      | none =>
        match f1.insertMessage msg.imapData.uid encode msg.encoding with
        | none => (some "insert failed", { box with mbox := f1 })
        | some f2 => refresh { box with mbox := f2 }

/-- `mailbox.AddNew` (lines 522-542): stamp the message as new (zero
identifier, sequence number `count+1`, the given flags, receipt time
now), save it — and return `nil` unconditionally, discarding
`saveBitmessage`'s result. -/
def AddNew (box : Mbox) (bmsg : Bitmessage) (flags now : ℕ) :
    Option String × Mbox :=
  let msg := { bmsg with imapData :=
    { uid := 0, sequenceNumber := messagesCount box + 1,
      flags := flags, timeReceived := now } }
  let res := saveBitmessage box msg
  (none, res.2)

/-- An `email.IMAPEmail`, with its content reduced to the message the
SMTP conversion would produce (`none` when conversion fails). -/
structure IMAPEmail where
  content : Option Bitmessage
  imapUID : ℕ
  imapSequenceNumber : ℕ
  imapFlags : ℕ
  date : ℕ
deriving DecidableEq

/-- `Modelled from the spec:` `NewBitmessageFromSMTP` — the external
SMTP-to-message conversion (out of scope, spec §1). -/
def newBitmessageFromSMTP (c : Option Bitmessage) : Option Bitmessage := c

/-- `Modelled from the spec:` `NewBitmessageDraftFromSMTP`. -/
def newBitmessageDraftFromSMTP (c : Option Bitmessage) : Option Bitmessage := c

/-- `mailbox.Save` (lines 671-711). -/
def Save (box : Mbox) (email : IMAPEmail) : Option String × Mbox :=
  match (if box.drafts then newBitmessageDraftFromSMTP email.content
         else newBitmessageFromSMTP email.content) with
  | none => (some "conversion failed", box)
  | some msg0 =>
    let msg := { msg0 with imapData :=
      { uid := email.imapUID, sequenceNumber := email.imapSequenceNumber,
        flags := email.imapFlags, timeReceived := email.date } }
    if msg.imapData.uid ≠ 0 then
      match bmsgByUID box msg.imapData.uid with
      | none => (some "Invalid sequence number", box)
      | some previous =>
        if previous.imapData.uid ≠ msg.imapData.uid then
          (some "Invalid uid", box)
        else if previous.imapData.timeReceived ≠ msg.imapData.timeReceived then
          (some "Cannot change date received", box)
        else saveBitmessage box { msg with ackReceived := previous.ackReceived }
    else saveBitmessage box msg

/-- The in-place removal loop of `mailbox.DeleteBitmessageByUID` (lines
613-618): drop the first occurrence, keeping the rest in order. -/
def removeFirst : List ℕ → ℕ → List ℕ
  | [], _ => []
  | x :: xs, id => if x = id then xs else x :: removeFirst xs id

/-- `mailbox.DeleteBitmessageByUID` (lines 587-620). -/
def DeleteBitmessageByUID (box : Mbox) (id : ℕ) : Option String × Mbox :=
  match bmsgByUID box id with
  | none => (none, box)
  | some bmsg =>
    match box.mbox.deleteMessage id with
    | none => (some "delete failed", box)
    | some f' =>
      (none, { box with
               mbox := f',
               numRecent := if hasFlags bmsg.imapData.flags FlagRecent then
                 box.numRecent - 1 else box.numRecent,
               numUnseen := if hasFlags bmsg.imapData.flags FlagSeen then
                 box.numUnseen else box.numUnseen - 1,
               uids := removeFirst box.uids id })

/-- The scan of `mailbox.ReceiveAck` (the callback at lines 761-778): a
decode failure makes the callback return the error, which stops the
enumeration with no match recorded (the error itself is discarded by
`ReceiveAck`). -/
def ackFindLoop (sub : Option (Bitmessage → Bool)) (ack : ℕ) :
    List Entry → Option Bitmessage
  | [] => none
  | e :: rest =>
    match DecodeBitmessage e.data with
    | none => none
    | some entry =>
      if subOK sub entry then
        if entry.ack = ack then some entry
        else ackFindLoop sub ack rest
      else ackFindLoop sub ack rest

/-- `mailbox.ReceiveAck` (lines 758-790). -/
def ReceiveAck (box : Mbox) (ack : ℕ) : Option Bitmessage × Mbox :=
  match ackFindLoop box.sub ack (box.mbox.scan 0 0 2) with
  | none => (none, box)
  | some ackMatch =>
    let m := { ackMatch with ackReceived := true }
    let res := saveBitmessage box m
    (some m, res.2)

/-- `mailbox.LastUID` (lines 217-222): `uint32(box.uids[len(box.uids)-1])`;
`none` is the Go index-out-of-range panic on an empty index. -/
def LastUID (box : Mbox) : Option ℕ :=
  if box.uids.length = 0 then none
  else some (box.uids.getD (box.uids.length - 1) 0 % 4294967296)

/-- `email.NewMailbox` (lines 804-819): construct over a store handle
and immediately refresh; a refresh failure fails construction. -/
def NewMailbox (f : Folder) : Option Mbox :=
  match refresh { mbox := f, sub := none, drafts := false, uids := [],
                  numRecent := 0, numUnseen := 0, nextUID := 0 } with
  | (none, m) => some m
  | (some _, _) => none

/-- `email.NewDrafts` (lines 822-838). -/
def NewDrafts (f : Folder) : Option Mbox :=
  match refresh { mbox := f, sub := none, drafts := true, uids := [],
                  numRecent := 0, numUnseen := 0, nextUID := 0 } with
  | (none, m) => some m
  | (some _, _) => none

/-! ## Concrete states used by witnesses and counterexamples -/

/-- A message with the given flag set, receipt time and ack token. -/
def mkMsg (flags t ack : ℕ) : Bitmessage := ⟨⟨0, 0, flags, t⟩, ack, false, 2⟩

/-- A store with three decodable messages at identifiers 5, 10, 15. -/
def sampleFolder : Folder :=
  ⟨[⟨5, 2, some (mkMsg 32 11 1)⟩, ⟨10, 2, some (mkMsg 0 12 2)⟩,
    ⟨15, 2, some (mkMsg 1 13 3)⟩], 16, false⟩

/-- The mailbox over `sampleFolder` in its refreshed state. -/
def sampleBox : Mbox := ⟨sampleFolder, none, false, [5, 10, 15], 1, 2, 16⟩

/-- An empty store whose `InsertNewMessage` fails with an I/O error. -/
def failFolder : Folder := ⟨[], 1, true⟩

/-- The mailbox over `failFolder`. -/
def failBox : Mbox := ⟨failFolder, none, false, [], 0, 0, 1⟩

/-- A store holding an undecodable blob at identifier 1, followed by a
decodable message (ack token 7) at identifier 2. -/
def badFolder : Folder := ⟨[⟨1, 2, none⟩, ⟨2, 2, some (mkMsg 0 5 7)⟩], 3, false⟩

/-- A mailbox over `badFolder`. -/
def badBox : Mbox := ⟨badFolder, none, false, [], 0, 0, 3⟩

/-- A store whose identifiers straddle the float64 precision boundary:
`float64(2^53+1)` is not exact (it rounds to `2^53`). -/
def bigFolder : Folder :=
  ⟨[⟨0, 2, some (mkMsg 0 11 1)⟩, ⟨2 ^ 53, 2, some (mkMsg 0 12 2)⟩,
    ⟨2 ^ 53 + 1, 2, some (mkMsg 0 13 3)⟩], 2 ^ 53 + 2, false⟩

/-- The well-formed mailbox over `bigFolder`: identifier searches for
`2^53` repeat their loop state forever. -/
def bigBox : Mbox :=
  ⟨bigFolder, none, false, [0, 2 ^ 53, 2 ^ 53 + 1], 0, 3, 2 ^ 53 + 2⟩

/-! ## C10: LastUID -/

/-- C10: `LastUID` is total only when the identifier index is
non-empty: with at least one indexed message the access
`uids[len(uids)-1]` is in bounds and `LastUID` returns the final
identifier truncated to 32 bits (the largest one when the index is
sorted); on the empty index the access is out of bounds (there is no
handled empty-mailbox branch). -/
theorem lastUID_total_iff_nonempty (box : Mbox) :
    (box.uids ≠ [] →
      ∃ v, box.uids.getLast? = some v ∧
        LastUID box = some (v % 4294967296) ∧
        (box.uids.Pairwise (· < ·) → ∀ x ∈ box.uids, x ≤ v)) ∧
    (box.uids = [] → LastUID box = none) := by
  constructor
  · intro hne
    have hlen : 0 < box.uids.length := List.length_pos.mpr hne
    refine ⟨box.uids.getD (box.uids.length - 1) 0, ?_, ?_, ?_⟩
    · rw [List.getLast?_eq_getElem?, List.getElem?_eq_getElem (by omega),
        List.getD_eq_getElem _ _ (by omega)]
    · unfold LastUID
      rw [if_neg (by omega)]
    · intro hp x hx
      rcases List.mem_iff_getElem.mp hx with ⟨i, hi, rfl⟩
      rcases Nat.lt_or_ge i (box.uids.length - 1) with h | h
      · have hlt := getD_lt_getD_of_lt box.uids hp h (by omega)
        rw [List.getD_eq_getElem _ _ hi] at hlt
        omega
      · have : i = box.uids.length - 1 := by omega
        subst this
        rw [List.getD_eq_getElem _ _
          (show box.uids.length - 1 < box.uids.length by omega)]
  · intro he
    unfold LastUID
    rw [if_pos (by simp [he])]

/-- Witness for C10 on the three-message mailbox: the last identifier
is 15. -/
theorem lastUID_total_iff_nonempty_witness : LastUID sampleBox = some 15 := by
  rcases (lastUID_total_iff_nonempty sampleBox).1 (by decide) with
    ⟨v, hv, hl, _⟩
  have h15 : sampleBox.uids.getLast? = some 15 := by decide
  rw [h15] at hv
  have : v = 15 := (Option.some.inj hv).symm
  rw [this] at hl
  exact hl

/-! ## C6: replace with a changed receipt timestamp -/

/-- `bmsgByUID` decorates its result with the queried identifier. -/
theorem bmsgByUID_uid (box : Mbox) (u : ℕ) (b : Bitmessage)
    (h : bmsgByUID box u = some b) : b.imapData.uid = u := by
  unfold bmsgByUID at h
  split at h
  · exact absurd h (by simp)
  · split_ifs at h
    split at h
    · exact absurd h (by simp)
    · split_ifs at h
      split at h
      · exact absurd h (by simp)
      · have := Option.some.inj h
        subst this
        rfl

/-- C6 (amended): a `Save` carrying a non-zero identifier (a replace)
whose receipt timestamp differs from the stored one fails with the
error "Cannot change date received", and the mailbox state — store
contents, identifier index and counts — is returned unchanged —
provided the identifier search for the stored message completes
(`bmsgByUID … = some prev`): float64 rounding can instead make that
search loop forever, in which case `Save` never returns (see the
counterexample). -/
theorem save_replace_changed_timestamp_fails (box : Mbox)
    (email : IMAPEmail) (m prev : Bitmessage)
    (hconv : email.content = some m)
    (h0 : email.imapUID ≠ 0)
    (hprev : bmsgByUID box email.imapUID = some prev)
    (hts : prev.imapData.timeReceived ≠ email.date) :
    Save box email = (some "Cannot change date received", box) := by
  have huid : prev.imapData.uid = email.imapUID := bmsgByUID_uid _ _ _ hprev
  have hcv : (if box.drafts then newBitmessageDraftFromSMTP email.content
      else newBitmessageFromSMTP email.content) = some m := by
    unfold newBitmessageFromSMTP newBitmessageDraftFromSMTP
    rw [ite_self, hconv]
  simp only [Save, hcv]
  rw [if_pos h0, hprev]
  simp only
  rw [if_neg (by simp [huid]), if_pos hts]

/-- Witness for C6: replacing message 10 of the sample mailbox (stored
receipt time 12) with receipt time 99 fails and leaves the state
unchanged. -/
theorem save_replace_changed_timestamp_fails_witness :
    Save sampleBox ⟨some (mkMsg 0 50 9), 10, 2, 0, 99⟩ =
      (some "Cannot change date received", sampleBox) :=
  save_replace_changed_timestamp_fails sampleBox
    ⟨some (mkMsg 0 50 9), 10, 2, 0, 99⟩ (mkMsg 0 50 9)
    (decorate (mkMsg 0 12 2) 10 2) (by decide) (by decide) (by decide)
    (by decide)

/-! ## C8: AddNew and store I/O failure -/

/-- C8 (code bug): on a store whose insertion fails, the underlying
`saveBitmessage` returns the error, but `AddNew` discards it (line 539
ignores the return value) and returns `nil`: the error is not surfaced
to `AddNew`'s caller. -/
theorem addNew_swallows_store_failure :
    (AddNew failBox (mkMsg 0 7 1) 0 7).1 = none ∧
    (saveBitmessage failBox
      { mkMsg 0 7 1 with imapData :=
        { uid := 0, sequenceNumber := 1, flags := 0, timeReceived := 7 } }).1 =
      some "insert failed" := by
  constructor
  · rfl
  · rfl

/-! ## C4: single-bound range in sequence-number set resolution -/

/-- C4 (code bug): resolving the sequence-number set expression `2`
against the mailbox with identifiers `[5, 10, 15]` appends `nil`, even
though the message at sequence number 2 (identifier 10) exists: line
494 converts the validated sequence number into the identifier
`uint32(box.uids[startIndex-1])` and line 499 then feeds that
identifier to `bitmessageBySequenceNumber`, which expects a sequence
number. -/
theorem setBySequenceNumber_single_bound_misses :
    bitmessageSetBySequenceNumber sampleBox [⟨SeqVal.val 2, SeqVal.noVal⟩] =
      [none] ∧
    bitmessageBySequenceNumber sampleBox 2 =
      some (decorate (mkMsg 0 12 2) 10 2) := by
  constructor
  · decide
  · decide

/-! ## C3: decode failures during multi-entry scans -/

theorem getRangeLoop_skips_bad (sub : Option (Bitmessage → Bool)) (s : ℕ)
    (e : Entry) (he : e.data = none) :
    ∀ (pre post : List Entry) (i : ℕ),
      getRangeLoop sub s (pre ++ e :: post) i =
        getRangeLoop sub s (pre ++ post) i := by
  intro pre
  induction pre with
  | nil =>
    intro post i
    simp [getRangeLoop, DecodeBitmessage, he]
  | cons x xs ih =>
    intro post i
    simp only [List.cons_append, getRangeLoop]
    cases hx : DecodeBitmessage x.data with
    | none => exact ih post i
    | some b =>
      by_cases hs : subOK sub (decorate b x.id (s + i))
      · simp [hs, ih post (i + 1)]
      · simp [hs, ih post i]

theorem refreshLoop_aborts (sub : Option (Bitmessage → Bool)) :
    ∀ (l : List Entry) (r u : ℕ) (ids : List ℕ),
      (∃ e ∈ l, e.data = none) → (refreshLoop sub l r u ids).1 = true := by
  intro l
  induction l with
  | nil =>
    rintro r u ids ⟨e, he, _⟩
    simp at he
  | cons x xs ih =>
    rintro r u ids ⟨e, he, hd⟩
    rcases List.mem_cons.mp he with rfl | hmem
    · simp [refreshLoop, DecodeBitmessage, hd]
    · simp only [refreshLoop]
      cases hx : DecodeBitmessage x.data with
      | none => rfl
      | some b =>
        by_cases hs : subOK sub b
        · simp only [hs, if_true]
          exact ih _ _ _ ⟨e, hmem, hd⟩
        · simp only [hs]
          simp only [if_neg (by simp : ¬ (false = true))]
          exact ih _ _ _ ⟨e, hmem, hd⟩

theorem refresh_aborts_on_bad_entry (box : Mbox)
    (h : ∃ e ∈ box.mbox.scan 0 0 2, e.data = none) :
    (refresh box).1.isSome ∧ (refresh box).2.uids = box.uids := by
  have h1 := refreshLoop_aborts box.sub (box.mbox.scan 0 0 2) 0 0 [] h
  unfold refresh
  rcases hres : refreshLoop box.sub (box.mbox.scan 0 0 2) 0 0 [] with
    ⟨b, r, u, ids⟩
  rw [hres] at h1
  simp at h1
  subst h1
  simp

theorem ackFindLoop_stops_at_bad (sub : Option (Bitmessage → Bool)) (ack : ℕ)
    (e : Entry) (he : e.data = none) :
    ∀ (pre post : List Entry),
      ackFindLoop sub ack (pre ++ e :: post) = ackFindLoop sub ack pre := by
  intro pre
  induction pre with
  | nil =>
    intro post
    simp [ackFindLoop, DecodeBitmessage, he]
  | cons x xs ih =>
    intro post
    simp only [List.cons_append, ackFindLoop]
    cases hx : DecodeBitmessage x.data with
    | none => rfl
    | some b =>
      by_cases hs : subOK sub b
      · by_cases ha : b.ack = ack
        · simp [hs, ha]
        · simp [hs, ha, ih post]
      · simp [hs, ih post]

/-- C3 counterexample: on a store holding an undecodable blob at
identifier 1 followed by a decodable message with ack token 7 at
identifier 2, the full refresh returns an error instead of skipping,
and the acknowledgment scan stops at the undecodable entry and misses
the match behind it (found once the bad entry is removed). -/
theorem decode_failure_aborts_scans :
    (refresh badBox).1 = some "failed to decode message" ∧
    ackFindLoop none 7 badFolder.entries = none ∧
    ackFindLoop none 7 [⟨2, 2, some (mkMsg 0 5 7)⟩] = some (mkMsg 0 5 7) := by
  refine ⟨rfl, rfl, rfl⟩

/-- C3 (amended): an entry whose stored bytes fail codec decode is
logged and skipped — the scan continuing over the remaining entries —
only in the ranged fetch `getRange`; in the full refresh the decode
failure aborts the scan and surfaces an error, leaving the identifier
index untouched; and in the acknowledgment-token search the decode
failure stops the enumeration at the failing entry (entries after it
are never examined, and no error is surfaced). -/
theorem decode_failure_scan_behavior :
    (∀ (sub : Option (Bitmessage → Bool)) (s : ℕ) (e : Entry),
        e.data = none → ∀ (pre post : List Entry) (i : ℕ),
        getRangeLoop sub s (pre ++ e :: post) i =
          getRangeLoop sub s (pre ++ post) i) ∧
    (∀ box : Mbox, (∃ e ∈ box.mbox.scan 0 0 2, e.data = none) →
        (refresh box).1.isSome ∧ (refresh box).2.uids = box.uids) ∧
    (∀ (sub : Option (Bitmessage → Bool)) (ack : ℕ) (e : Entry),
        e.data = none → ∀ (pre post : List Entry),
        ackFindLoop sub ack (pre ++ e :: post) = ackFindLoop sub ack pre) :=
  ⟨getRangeLoop_skips_bad, refresh_aborts_on_bad_entry,
    ackFindLoop_stops_at_bad⟩

/-- Witness for C3 (amended): the refresh of the mailbox over the store
with the undecodable entry errors out with the index untouched. -/
theorem decode_failure_scan_behavior_witness :
    (refresh badBox).1.isSome ∧ (refresh badBox).2.uids = badBox.uids :=
  decode_failure_scan_behavior.2.1 badBox ⟨⟨1, 2, none⟩, by decide, rfl⟩

/-! ## C7: empty-mailbox and malformed-bound set resolution -/

/-- Termination of every identifier search against the mailbox's index:
the condition under which all lookups a set resolution performs
complete.  It holds of every index that triggers no float64 probe
pinning — in particular of the three-message sample mailbox — but fails
on `bigBox`. -/
def gsnTotal (box : Mbox) : Prop :=
  ∀ u : ℕ, (GetSequenceNumber box.uids u).isSome

/-- A range that triggers the malformed-value early return: its lower
bound fails `Value()`, or its lower bound parses and its upper bound is
present but fails `Value()`. -/
def badBound (r : MsgRange) : Prop :=
  r.min = SeqVal.bad ∨ (∃ n, r.min = SeqVal.val n ∧ r.max = SeqVal.bad)

/-- A range the identifier resolver processes without an early return. -/
def cleanUIDRange (r : MsgRange) : Prop :=
  r.min = SeqVal.last ∨ (∃ n, r.min = SeqVal.val n ∧
    (r.max = SeqVal.noVal ∨ r.max = SeqVal.last ∨ ∃ m, r.max = SeqVal.val m))

/-- A range the sequence-number resolver processes without an early
return (its parsed lower bound must also be a valid sequence number). -/
def cleanSeqRange (box : Mbox) (r : MsgRange) : Prop :=
  r.min = SeqVal.last ∨ (∃ n, r.min = SeqVal.val n ∧ 1 ≤ n ∧
    n ≤ messagesCount box ∧
    (r.max = SeqVal.noVal ∨ r.max = SeqVal.last ∨ ∃ m, r.max = SeqVal.val m))

theorem setByUIDLoop_stops (box : Mbox) (r : MsgRange) (hr : badBound r) :
    ∀ (rest : List MsgRange) (msgs : List (Option Bitmessage)),
      setByUIDLoop box (r :: rest) msgs = msgs := by
  intro rest msgs
  rcases hr with h | ⟨n, h1, h2⟩
  · simp [setByUIDLoop, h, SeqVal.isLast, SeqVal.value]
  · simp [setByUIDLoop, h1, h2, SeqVal.isLast, SeqVal.isNil, SeqVal.value]

theorem setByUIDLoop_clean_step (box : Mbox) (r : MsgRange)
    (hr : cleanUIDRange r) :
    ∃ chunk, ∀ (rest : List MsgRange) (msgs : List (Option Bitmessage)),
      setByUIDLoop box (r :: rest) msgs = setByUIDLoop box rest (msgs ++ chunk) := by
  rcases hr with h | ⟨n, h1, h2 | h2 | ⟨m, h2⟩⟩
  · exact ⟨[lastBitmessage box], fun rest msgs => by
      simp [setByUIDLoop, h, SeqVal.isLast]⟩
  · exact ⟨[bmsgByUID box n], fun rest msgs => by
      simp [setByUIDLoop, h1, h2, SeqVal.isLast, SeqVal.isNil, SeqVal.value]⟩
  · exact ⟨(bitmessagesSinceUID box n).map some, fun rest msgs => by
      simp [setByUIDLoop, h1, h2, SeqVal.isLast, SeqVal.isNil, SeqVal.value]⟩
  · exact ⟨(bitmessagesByUIDRange box n m).map some, fun rest msgs => by
      simp [setByUIDLoop, h1, h2, SeqVal.isLast, SeqVal.isNil, SeqVal.value]⟩

theorem setByUIDLoop_prefix (box : Mbox) :
    ∀ (pre : List MsgRange), (∀ x ∈ pre, cleanUIDRange x) →
      ∀ (r : MsgRange), badBound r → ∀ (post : List MsgRange)
        (msgs : List (Option Bitmessage)),
        setByUIDLoop box (pre ++ r :: post) msgs =
          setByUIDLoop box pre msgs := by
  intro pre
  induction pre with
  | nil =>
    intro _ r hr post msgs
    rw [List.nil_append, setByUIDLoop_stops box r hr post msgs]
    rfl
  | cons x xs ih =>
    intro hpre r hr post msgs
    rcases setByUIDLoop_clean_step box x (hpre x (List.mem_cons_self _ _))
      with ⟨chunk, hstep⟩
    rw [List.cons_append, hstep (xs ++ r :: post) msgs, hstep xs msgs]
    exact ih (fun y hy => hpre y (List.mem_cons_of_mem _ hy)) r hr post
      (msgs ++ chunk)

theorem setBySeqLoop_stops (box : Mbox) (r : MsgRange) (hr : badBound r) :
    ∀ (rest : List MsgRange) (msgs : List (Option Bitmessage)),
      setBySeqLoop box (r :: rest) msgs = msgs := by
  intro rest msgs
  rcases hr with h | ⟨n, h1, h2⟩
  · simp [setBySeqLoop, h, SeqVal.isLast, SeqVal.value]
  · simp only [setBySeqLoop, h1, h2, SeqVal.isLast, SeqVal.isNil,
      SeqVal.value, reduceIte]
    simp

theorem setBySeqLoop_clean_step (box : Mbox) (r : MsgRange)
    (hr : cleanSeqRange box r) :
    ∃ chunk, ∀ (rest : List MsgRange) (msgs : List (Option Bitmessage)),
      setBySeqLoop box (r :: rest) msgs =
        setBySeqLoop box rest (msgs ++ chunk) := by
  rcases hr with h | ⟨n, h1, hn1, hn2, h2 | h2 | ⟨m, h2⟩⟩
  · exact ⟨[lastBitmessage box], fun rest msgs => by
      simp [setBySeqLoop, h, SeqVal.isLast]⟩
  · exact ⟨[bitmessageBySequenceNumber box
        (box.uids.getD (n - 1) 0 % 4294967296)], fun rest msgs => by
      simp only [setBySeqLoop, h1, h2, SeqVal.isLast, SeqVal.isNil,
        SeqVal.value, reduceIte]
      rw [if_neg (show ¬ (n < 1 ∨ n > messagesCount box) by omega)]
      simp⟩
  · exact ⟨(bitmessagesSinceSequenceNumber box
        (box.uids.getD (n - 1) 0 % 4294967296)).map some, fun rest msgs => by
      simp only [setBySeqLoop, h1, h2, SeqVal.isLast, SeqVal.isNil,
        SeqVal.value, reduceIte]
      rw [if_neg (show ¬ (n < 1 ∨ n > messagesCount box) by omega)]
      simp⟩
  · exact ⟨(bitmessagesBySequenceRange box
        (box.uids.getD (n - 1) 0 % 4294967296) m).map some, fun rest msgs => by
      simp only [setBySeqLoop, h1, h2, SeqVal.isLast, SeqVal.isNil,
        SeqVal.value, reduceIte]
      rw [if_neg (show ¬ (n < 1 ∨ n > messagesCount box) by omega)]
      simp⟩

theorem setBySeqLoop_prefix (box : Mbox) :
    ∀ (pre : List MsgRange), (∀ x ∈ pre, cleanSeqRange box x) →
      ∀ (r : MsgRange), badBound r → ∀ (post : List MsgRange)
        (msgs : List (Option Bitmessage)),
        setBySeqLoop box (pre ++ r :: post) msgs =
          setBySeqLoop box pre msgs := by
  intro pre
  induction pre with
  | nil =>
    intro _ r hr post msgs
    rw [List.nil_append, setBySeqLoop_stops box r hr post msgs]
    rfl
  | cons x xs ih =>
    intro hpre r hr post msgs
    rcases setBySeqLoop_clean_step box x (hpre x (List.mem_cons_self _ _))
      with ⟨chunk, hstep⟩
    rw [List.cons_append, hstep (xs ++ r :: post) msgs, hstep xs msgs]
    exact ih (fun y hy => hpre y (List.mem_cons_of_mem _ hy)) r hr post
      (msgs ++ chunk)

/-- C7 (amended): both set resolvers return the empty result on an
empty mailbox; and on a mailbox all of whose identifier searches
terminate (float64 probe pinning can instead make a search — and hence
the whole resolution — run forever; see the counterexample), a set
expression whose ranges up to some point resolve cleanly but whose next
range carries a malformed (`Value()`-failing) bound resolves to exactly
the messages accumulated from the ranges before that bound — a partial
result, not an error. -/
theorem set_resolution_empty_and_partial :
    (∀ (box : Mbox) (s : SequenceSet), messagesCount box = 0 →
        bitmessageSetByUID box s = [] ∧
        bitmessageSetBySequenceNumber box s = []) ∧
    (∀ (box : Mbox) (pre : List MsgRange) (r : MsgRange)
        (post : List MsgRange), gsnTotal box →
        (∀ x ∈ pre, cleanUIDRange x) → badBound r →
        bitmessageSetByUID box (pre ++ r :: post) =
          bitmessageSetByUID box pre) ∧
    (∀ (box : Mbox) (pre : List MsgRange) (r : MsgRange)
        (post : List MsgRange), gsnTotal box →
        (∀ x ∈ pre, cleanSeqRange box x) →
        badBound r →
        bitmessageSetBySequenceNumber box (pre ++ r :: post) =
          bitmessageSetBySequenceNumber box pre) := by
  refine ⟨?_, ?_, ?_⟩
  · intro box s h
    constructor
    · simp [bitmessageSetByUID, h]
    · simp [bitmessageSetBySequenceNumber, h]
  · intro box pre r post _hterm hpre hr
    unfold bitmessageSetByUID
    split_ifs with h
    · rfl
    · exact setByUIDLoop_prefix box pre hpre r hr post []
  · intro box pre r post _hterm hpre hr
    unfold bitmessageSetBySequenceNumber
    split_ifs with h
    · rfl
    · exact setBySeqLoop_prefix box pre hpre r hr post []

/-- Every identifier search on the sample mailbox's index `[5, 10, 15]`
terminates: targets below the first or above the last identifier are
settled by the boundary checks, and the eleven in-range targets are
checked by evaluation. -/
theorem gsnTotal_sampleBox : gsnTotal sampleBox := by
  intro u
  rcases Nat.lt_or_ge u 5 with h | h
  · rw [gsn_lt_head sampleBox.uids u (by decide) (by exact h)]
    rfl
  · rcases Nat.lt_or_ge 15 u with h2 | h2
    · rw [gsn_gt_last sampleBox.uids u (by decide) (by decide) (by exact h2)]
      rfl
    · interval_cases u <;> decide

/-- Witness for C7: against the three-message mailbox — all of whose
identifier searches terminate — the identifier set `5, <malformed>, 15`
resolves to the same result as the set `5`. -/
theorem set_resolution_empty_and_partial_witness :
    bitmessageSetByUID sampleBox
        ([⟨SeqVal.val 5, SeqVal.noVal⟩] ++ ⟨SeqVal.bad, SeqVal.noVal⟩ ::
          [⟨SeqVal.val 15, SeqVal.noVal⟩]) =
      bitmessageSetByUID sampleBox [⟨SeqVal.val 5, SeqVal.noVal⟩] :=
  set_resolution_empty_and_partial.2.1 sampleBox
    [⟨SeqVal.val 5, SeqVal.noVal⟩] ⟨SeqVal.bad, SeqVal.noVal⟩
    [⟨SeqVal.val 15, SeqVal.noVal⟩]
    gsnTotal_sampleBox
    (by
      intro x hx
      simp at hx
      subst hx
      exact Or.inr ⟨5, rfl, Or.inl rfl⟩)
    (Or.inl rfl)

/-- C7 counterexample: the single-identifier range `2^53` carries no
malformed bound — it is a clean range — yet on the well-formed mailbox
`bigBox` the lookup its resolution performs repeats its loop state
forever: the resolution never completes, so no result, partial or
otherwise, is ever returned. -/
theorem set_resolution_lookup_diverges :
    cleanUIDRange ⟨SeqVal.val (2 ^ 53), SeqVal.noVal⟩ ∧
    ¬ gsnTotal bigBox ∧
    (∀ fuel, gsnLoop bigBox.uids (2 ^ 53) fuel 0 2 0 (2 ^ 53 + 1) = none) := by
  refine ⟨Or.inr ⟨2 ^ 53, rfl, Or.inl rfl⟩, ?_,
    gsnLoop_none_of_fix _ _ _ _ _ _ (by decide)⟩
  intro hall
  have hsome := hall (2 ^ 53)
  rw [show GetSequenceNumber bigBox.uids (2 ^ 53) = none by decide] at hsome
  exact absurd hsome (by simp)

/-! ## C5: DeleteBitmessageByUID -/

/-- Entry identifiers compare by `<` decidably (used to decide
well-formedness of concrete states). -/
instance decEntryIdLt : DecidableRel (fun a b : Entry => a.id < b.id) :=
  fun a b => Nat.decLt a.id b.id

/-- An entry visible in the mailbox: suffix 2, decodable, and passing
the membership predicate. -/
def visibleB (sub : Option (Bitmessage → Bool)) (e : Entry) : Bool :=
  e.suffix == 2 && (match e.data with
    | none => false
    | some b => subOK sub b)

/-- The number of visible stored messages satisfying a predicate. -/
def tally (sub : Option (Bitmessage → Bool)) (entries : List Entry)
    (p : Bitmessage → Bool) : ℕ :=
  ((entries.filter (visibleB sub)).filterMap (fun e => e.data)).countP p

/-- Well-formedness of a mailbox state: the store is ascending with
distinct identifiers, and the cached index and counts agree with the
store's ground truth — the state a successful refresh establishes. -/
def WF (box : Mbox) : Prop :=
  box.mbox.entries.Pairwise (fun a b => a.id < b.id) ∧
  box.uids = (box.mbox.entries.filter (visibleB box.sub)).map
    (fun e => e.id) ∧
  box.numRecent = tally box.sub box.mbox.entries
    (fun b => hasFlags b.imapData.flags FlagRecent) ∧
  box.numUnseen = tally box.sub box.mbox.entries
    (fun b => ! hasFlags b.imapData.flags FlagSeen)

theorem WF_uids_pairwise (box : Mbox) (hwf : WF box) :
    box.uids.Pairwise (· < ·) := by
  rw [hwf.2.1]
  exact List.pairwise_map.mpr (hwf.1.filter _)

theorem find?_of_mem_pairwise :
    ∀ (entries : List Entry), entries.Pairwise (fun a b => a.id < b.id) →
      ∀ (e : Entry) (i : ℕ), e ∈ entries → e.id = i →
        entries.find? (fun x => x.id == i) = some e := by
  intro entries
  induction entries with
  | nil => intro _ e i he; simp at he
  | cons x xs ih =>
    intro hp e i he hid
    rcases List.mem_cons.mp he with rfl | hmem
    · exact List.find?_cons_of_pos _ (by simp [hid])
    · rcases List.pairwise_cons.mp hp with ⟨hx, hxs⟩
      have hlt : x.id < e.id := hx e hmem
      rw [List.find?_cons_of_neg _ (by simp; omega)]
      exact ih hxs e i hmem hid

/-- On a well-formed mailbox, `bmsgByUID` succeeds exactly on the
indexed identifiers, returning the stored message decorated with the
identifier and its 1-based position. -/
theorem bmsgByUID_of_mem (box : Mbox) (id : ℕ) (hwf : WF box)
    (hterm : (GetSequenceNumber box.uids id).isSome)
    (hmem : id ∈ box.uids) :
    ∃ e b, e ∈ box.mbox.entries ∧ e.id = id ∧ e.suffix = 2 ∧
      e.data = some b ∧ subOK box.sub b = true ∧
      bmsgByUID box id = some (decorate b id (ltCount box.uids id + 1)) := by
  have hsort := WF_uids_pairwise box hwf
  have hmem' := hmem
  rw [hwf.2.1] at hmem'
  rcases List.mem_map.mp hmem' with ⟨e, hef, hid⟩
  rcases List.mem_filter.mp hef with ⟨hee, hvis⟩
  rcases hd : e.data with _ | b
  · simp [visibleB, hd] at hvis
  · simp only [visibleB, hd, Bool.and_eq_true, beq_iff_eq] at hvis
    obtain ⟨hsuf', hsub⟩ := hvis
    refine ⟨e, b, hee, hid, hsuf', hd, hsub, ?_⟩
    have hrank := getD_ltCount_of_mem box.uids id hsort hmem
    simp only [bmsgByUID, gsn_isSome_rank box.uids id hsort hterm]
    rw [if_neg (by omega)]
    simp only [Nat.add_sub_cancel]
    rw [if_neg (by rw [hrank.2]; simp)]
    unfold Folder.getMessage
    rw [find?_of_mem_pairwise box.mbox.entries hwf.1 e id hee hid]
    simp [DecodeBitmessage, hsuf', hd]

/-- On a sorted index, `bmsgByUID` fails on identifiers not present in
the index (regardless of the store). -/
theorem bmsgByUID_of_not_mem (box : Mbox)
    (hsort : box.uids.Pairwise (· < ·)) (id : ℕ) (h : id ∉ box.uids) :
    bmsgByUID box id = none := by
  cases hg : GetSequenceNumber box.uids id with
  | none => simp only [bmsgByUID, hg]
  | some seqno =>
    have hs := gsn_some_rank box.uids id hsort seqno hg
    subst hs
    simp only [bmsgByUID, hg]
    by_cases hlen : ltCount box.uids id + 1 > box.uids.length
    · rw [if_pos hlen]
    · rw [if_neg hlen]
      simp only [Nat.add_sub_cancel]
      have hlt : ltCount box.uids id < box.uids.length := by omega
      have hne : box.uids.getD (ltCount box.uids id) 0 ≠ id := by
        intro heq
        apply h
        rw [← heq, List.getD_eq_getElem _ _ hlt]
        exact List.getElem_mem hlt
      rw [if_pos hne]

theorem tally_pos (sub : Option (Bitmessage → Bool)) (entries : List Entry)
    (p : Bitmessage → Bool) (e : Entry) (b : Bitmessage)
    (hee : e ∈ entries) (hvis : visibleB sub e = true) (hd : e.data = some b)
    (hp : p b = true) : 1 ≤ tally sub entries p := by
  unfold tally
  exact List.countP_pos_iff.mpr
    ⟨b, List.mem_filterMap.mpr ⟨e, List.mem_filter.mpr ⟨hee, hvis⟩, hd⟩, hp⟩

theorem removeFirst_cons (x : ℕ) (l : List ℕ) (id : ℕ) :
    removeFirst (x :: l) id = if x = id then l else x :: removeFirst l id :=
  rfl

theorem removeFirst_append_not_mem (id : ℕ) :
    ∀ (pre post : List ℕ), id ∉ pre →
      removeFirst (pre ++ id :: post) id = pre ++ post := by
  intro pre
  induction pre with
  | nil =>
    intro post _
    simp [removeFirst]
  | cons x xs ih =>
    intro post hx
    have hne : x ≠ id := by
      intro h
      exact hx (by rw [h]; exact List.mem_cons_self _ _)
    rw [List.cons_append, removeFirst_cons, if_neg hne,
      ih post (fun h => hx (List.mem_cons_of_mem _ h)), List.cons_append]

/-- C5 (amended): provided the identifier search for `id` terminates
(float64 rounding in the search probe can instead make it — and hence
the whole deletion — loop forever; see the counterexample), deleting an
identifier absent from the folder's index is a no-op returning success —
index, counts and store unchanged; deleting a present identifier removes
exactly that one entry from the index (keeping the remaining identifiers
in their original relative order, with no rescan), removes the entry
from the store, decrements the recent count by one iff the deleted
message carried the recent flag, and decrements the unseen count by one
iff it lacked the seen flag (the count being at least one in each
decremented case). -/
theorem delete_by_uid_spec (box : Mbox) (id : ℕ) (hwf : WF box)
    (hterm : (GetSequenceNumber box.uids id).isSome) :
    (id ∉ box.uids → DeleteBitmessageByUID box id = (none, box)) ∧
    (id ∈ box.uids →
      ∃ b pre post,
        bmsgByUID box id = some b ∧
        box.uids = pre ++ id :: post ∧
        DeleteBitmessageByUID box id = (none,
          { box with
            mbox := { box.mbox with
                      entries := box.mbox.entries.filter
                        (fun e => e.id != id) },
            numRecent := if hasFlags b.imapData.flags FlagRecent then
                box.numRecent - 1 else box.numRecent,
            numUnseen := if hasFlags b.imapData.flags FlagSeen then
                box.numUnseen else box.numUnseen - 1,
            uids := pre ++ post }) ∧
        (hasFlags b.imapData.flags FlagRecent = true → 1 ≤ box.numRecent) ∧
        (hasFlags b.imapData.flags FlagSeen = false → 1 ≤ box.numUnseen)) := by
  constructor
  · intro hnm
    have hnone := bmsgByUID_of_not_mem box (WF_uids_pairwise box hwf) id hnm
    simp [DeleteBitmessageByUID, hnone]
  · intro hmem
    rcases bmsgByUID_of_mem box id hwf hterm hmem with
      ⟨e, b, hee, hid, hsuf, hd, hsub, hb⟩
    have hnd : box.uids.Nodup :=
      (WF_uids_pairwise box hwf).imp (fun h => Nat.ne_of_lt h)
    rcases List.append_of_mem hmem with ⟨pre, post, hsplit⟩
    have hpre : id ∉ pre := by
      rw [hsplit] at hnd
      rcases List.nodup_append.mp hnd with ⟨_, _, hdisj⟩
      intro hin
      exact hdisj hin (List.mem_cons_self _ _)
    have hrm : removeFirst box.uids id = pre ++ post := by
      rw [hsplit]
      exact removeFirst_append_not_mem id pre post hpre
    refine ⟨decorate b id (ltCount box.uids id + 1), pre, post, hb, hsplit,
      ?_, ?_, ?_⟩
    · simp only [DeleteBitmessageByUID, hb, Folder.deleteMessage]
      rw [hrm]
    · intro hfl
      rw [hwf.2.2.1]
      exact tally_pos box.sub box.mbox.entries _ e b hee
        (by simp [visibleB, hsuf, hd, hsub]) hd hfl
    · intro hfl
      rw [hwf.2.2.2]
      have hfl' : hasFlags b.imapData.flags FlagSeen = false := hfl
      refine tally_pos box.sub box.mbox.entries _ e b hee
        (by simp [visibleB, hsuf, hd, hsub]) hd ?_
      simp [hfl']

/-- Witness for C5: deleting the absent identifier 99 from the sample
mailbox — whose identifier search terminates — is a no-op returning
success. -/
theorem delete_by_uid_spec_witness :
    DeleteBitmessageByUID sampleBox 99 = (none, sampleBox) :=
  (delete_by_uid_spec sampleBox 99
    ⟨by decide, by decide, by decide, by decide⟩ (by decide)).1 (by decide)

/-- C5 counterexample: the identifier `2^53` is present in the
well-formed mailbox `bigBox`, but deleting it must first find it, and
that identifier search repeats its loop state forever — the real
deletion never happens and never returns.  (In the fuel model the
unproductive search surfaces as `none`, so the modelled `Delete`
degenerates to a no-op: the entry is not removed.) -/
theorem delete_lookup_diverges :
    WF bigBox ∧ (2 ^ 53) ∈ bigBox.uids ∧
    (∀ fuel, gsnLoop bigBox.uids (2 ^ 53) fuel 0 2 0 (2 ^ 53 + 1) = none) ∧
    DeleteBitmessageByUID bigBox (2 ^ 53) = (none, bigBox) :=
  ⟨⟨by decide, by decide, by decide, by decide⟩, by decide,
    gsnLoop_none_of_fix _ _ _ _ _ _ (by decide), by rfl⟩

/-- C6 counterexample: a replace targeting identifier `2^53` on the
well-formed mailbox `bigBox` (stored receipt timestamp 12, new one
differing).  `Save` looks the message up by identifier before comparing
timestamps, and that search repeats its loop state forever: the failure
"Cannot change date received" is never returned — the operation simply
never completes. -/
theorem save_lookup_diverges :
    WF bigBox ∧
    (∃ e ∈ bigBox.mbox.entries, e.id = 2 ^ 53 ∧
      e.data = some (mkMsg 0 12 2)) ∧
    (∀ fuel, gsnLoop bigBox.uids (2 ^ 53) fuel 0 2 0 (2 ^ 53 + 1) = none) ∧
    bmsgByUID bigBox (2 ^ 53) = none :=
  ⟨⟨by decide, by decide, by decide, by decide⟩, by decide,
    gsnLoop_none_of_fix _ _ _ _ _ _ (by decide), by decide⟩

/-! ## C9: the index stays strictly ascending with no duplicates -/

/-- The store-side assumption: entries ascending by identifier (hence
distinct), all below the next-identifier hint. -/
def StoreOK (f : Folder) : Prop :=
  f.entries.Pairwise (fun a b => a.id < b.id) ∧
  ∀ e ∈ f.entries, e.id < f.nextId

/-- The invariant of C9: `uids` strictly ascending, no duplicates. -/
def SortedU (box : Mbox) : Prop := box.uids.Pairwise (· < ·)

theorem insertNewMessage_storeOK (f : Folder) (data : Bytes) (suffix i : ℕ)
    (f' : Folder) (h : f.insertNewMessage data suffix = some (i, f'))
    (hok : StoreOK f) : StoreOK f' := by
  unfold Folder.insertNewMessage at h
  split_ifs at h
  have h' := Option.some.inj h
  have hf : f' = { f with entries := f.entries ++ [⟨f.nextId, suffix, data⟩],
                          nextId := f.nextId + 1 } := (Prod.mk.injEq _ _ _ _).mp h' |>.2.symm
  subst hf
  constructor
  · refine List.pairwise_append.mpr ⟨hok.1, by simp, ?_⟩
    intro a ha b hb
    have hb' : b = ⟨f.nextId, suffix, data⟩ := by simpa using hb
    subst hb'
    exact hok.2 a ha
  · intro e he
    rcases List.mem_append.mp he with he | he
    · have := hok.2 e he
      simp only []
      omega
    · have he' : e = ⟨f.nextId, suffix, data⟩ := by simpa using he
      subst he'
      simp

theorem deleteMessage_storeOK (f : Folder) (id : ℕ) (f' : Folder)
    (h : f.deleteMessage id = some f') (hok : StoreOK f) : StoreOK f' := by
  unfold Folder.deleteMessage at h
  have hf : f' = { f with entries := f.entries.filter (fun e => e.id != id) } :=
    (Option.some.inj h).symm
  subst hf
  exact ⟨hok.1.filter _, fun e he => hok.2 e (List.mem_filter.mp he).1⟩

theorem mem_insertEntry (e : Entry) :
    ∀ (l : List Entry) (x : Entry), x ∈ insertEntry e l → x = e ∨ x ∈ l := by
  intro l
  induction l with
  | nil =>
    intro x hx
    simp [insertEntry] at hx
    exact Or.inl hx
  | cons y ys ih =>
    intro x hx
    unfold insertEntry at hx
    split_ifs at hx
    · rcases List.mem_cons.mp hx with rfl | hx
      · exact Or.inl rfl
      · exact Or.inr hx
    · rcases List.mem_cons.mp hx with rfl | hx
      · exact Or.inr (List.mem_cons_self _ _)
      · rcases ih x hx with rfl | hx
        · exact Or.inl rfl
        · exact Or.inr (List.mem_cons_of_mem _ hx)

theorem insertEntry_pairwise (e : Entry) :
    ∀ (l : List Entry), l.Pairwise (fun a b => a.id < b.id) →
      (∀ x ∈ l, x.id ≠ e.id) →
      (insertEntry e l).Pairwise (fun a b => a.id < b.id) := by
  intro l
  induction l with
  | nil => intro _ _; simp [insertEntry]
  | cons y ys ih =>
    intro hp hne
    rcases List.pairwise_cons.mp hp with ⟨hy, hys⟩
    unfold insertEntry
    split_ifs with hlt
    · refine List.pairwise_cons.mpr ⟨?_, hp⟩
      intro z hz
      rcases List.mem_cons.mp hz with rfl | hz
      · exact hlt
      · exact lt_trans hlt (hy z hz)
    · have hylt : y.id < e.id := by
        have := hne y (List.mem_cons_self _ _)
        omega
      refine List.pairwise_cons.mpr ⟨?_, ih hys
        (fun x hx => hne x (List.mem_cons_of_mem _ hx))⟩
      intro z hz
      rcases mem_insertEntry e ys z hz with rfl | hz
      · exact hylt
      · exact hy z hz

theorem insertMessage_storeOK (f : Folder) (id : ℕ) (data : Bytes)
    (suffix : ℕ) (f' : Folder) (h : f.insertMessage id data suffix = some f')
    (hok : StoreOK f) : StoreOK f' := by
  unfold Folder.insertMessage at h
  split_ifs at h with hany
  have hne : ∀ x ∈ f.entries, x.id ≠ id := by simpa using hany
  have hf : f' = { f with
      entries := insertEntry ⟨id, suffix, data⟩ f.entries,
      nextId := max f.nextId (id + 1) } := (Option.some.inj h).symm
  subst hf
  constructor
  · exact insertEntry_pairwise _ _ hok.1 (fun x hx => hne x hx)
  · intro e he
    rcases mem_insertEntry _ _ _ he with rfl | he
    · simp only []
      exact lt_of_lt_of_le (Nat.lt_succ_self id) (le_max_right _ _)
    · exact lt_of_lt_of_le (hok.2 e he) (le_max_left _ _)

/-- The identifiers a refresh scan accumulates, in scan order. -/
def refreshIds (sub : Option (Bitmessage → Bool)) : List Entry → List ℕ
  | [] => []
  | e :: rest =>
    match DecodeBitmessage e.data with
    | none => []
    | some b =>
      if subOK sub b then e.id :: refreshIds sub rest
      else refreshIds sub rest

theorem refreshLoop_ids (sub : Option (Bitmessage → Bool)) :
    ∀ (l : List Entry) (r u : ℕ) (ids : List ℕ),
      (refreshLoop sub l r u ids).2.2.2 = ids ++ refreshIds sub l := by
  intro l
  induction l with
  | nil => intro r u ids; simp [refreshLoop, refreshIds]
  | cons e rest ih =>
    intro r u ids
    simp only [refreshLoop, refreshIds]
    cases hx : DecodeBitmessage e.data with
    | none => simp
    | some b =>
      by_cases hs : subOK sub b
      · simp only [hs, if_true]
        rw [ih]
        simp
      · simp only [hs]
        simp only [if_neg (by simp : ¬ (false = true))]
        exact ih _ _ _

theorem refreshIds_sublist (sub : Option (Bitmessage → Bool)) :
    ∀ (l : List Entry),
      List.Sublist (refreshIds sub l) (l.map (fun e => e.id)) := by
  intro l
  induction l with
  | nil => simp [refreshIds]
  | cons e rest ih =>
    simp only [refreshIds, List.map_cons]
    cases hx : DecodeBitmessage e.data with
    | none => exact List.nil_sublist _
    | some b =>
      by_cases hs : subOK sub b
      · simp only [hs, if_true]
        exact ih.cons₂ _
      · simp only [hs]
        simp only [if_neg (by simp : ¬ (false = true))]
        exact ih.cons _

theorem insertionSort_pairwise_lt (l : List ℕ) (h : l.Pairwise (· < ·)) :
    (List.insertionSort (· ≤ ·) l).Pairwise (· < ·) := by
  have hperm := List.perm_insertionSort (· ≤ ·) l
  have hsorted : (List.insertionSort (· ≤ ·) l).Pairwise (· ≤ ·) :=
    List.sorted_insertionSort _ l
  have hnd : (List.insertionSort (· ≤ ·) l).Nodup :=
    hperm.nodup_iff.mpr (h.imp (fun hab => Nat.ne_of_lt hab))
  exact (hsorted.and hnd).imp (fun hab => lt_of_le_of_ne hab.1 hab.2)

theorem refresh_preserves (box : Mbox) (hok : StoreOK box.mbox)
    (hs : SortedU box) :
    SortedU (refresh box).2 ∧ (refresh box).2.mbox = box.mbox := by
  have hids := refreshLoop_ids box.sub (box.mbox.scan 0 0 2) 0 0 []
  unfold refresh
  rcases hres : refreshLoop box.sub (box.mbox.scan 0 0 2) 0 0 [] with
    ⟨b, r, u, ids⟩
  rw [hres] at hids
  simp only [] at hids
  cases b
  · constructor
    · unfold SortedU
      simp only []
      have hscan : (box.mbox.scan 0 0 2).Pairwise (fun a b => a.id < b.id) :=
        hok.1.filter _
      have hmap : ((box.mbox.scan 0 0 2).map (fun e => e.id)).Pairwise
          (· < ·) := List.pairwise_map.mpr hscan
      have hidsp : ids.Pairwise (· < ·) := by
        rw [hids]
        simp only [List.nil_append]
        exact hmap.sublist (refreshIds_sublist box.sub _)
      exact insertionSort_pairwise_lt ids hidsp
    · rfl
  · exact ⟨hs, rfl⟩

theorem saveBitmessage_preserves (box : Mbox) (msg : Bitmessage)
    (hok : StoreOK box.mbox) (hs : SortedU box) :
    SortedU (saveBitmessage box msg).2 ∧
    StoreOK (saveBitmessage box msg).2.mbox := by
  by_cases h0 : msg.imapData.uid = 0
  · cases hins : box.mbox.insertNewMessage (serializeBM msg) msg.encoding with
    | none =>
      have he : saveBitmessage box msg = (some "insert failed", box) := by
        simp only [saveBitmessage, if_pos h0, hins]
      rw [he]
      exact ⟨hs, hok⟩
    | some p =>
      obtain ⟨i, f'⟩ := p
      have he : saveBitmessage box msg = refresh { box with mbox := f' } := by
        simp only [saveBitmessage, if_pos h0, hins]
      rw [he]
      have hok' := insertNewMessage_storeOK box.mbox _ _ i f' hins hok
      have hr := refresh_preserves { box with mbox := f' } hok' hs
      refine ⟨hr.1, ?_⟩
      rw [hr.2]
      exact hok'
  · have hdel : box.mbox.deleteMessage msg.imapData.uid = some { box.mbox with entries := box.mbox.entries.filter (fun e => e.id != msg.imapData.uid) } := rfl
    have hok1 := deleteMessage_storeOK box.mbox msg.imapData.uid _ hdel hok
    cases hget : Folder.getMessage { box.mbox with entries := box.mbox.entries.filter (fun e => e.id != msg.imapData.uid) } msg.imapData.uid with
    | some p =>
      have he : saveBitmessage box msg = (some "Unable to save.", { box with mbox := { box.mbox with entries := box.mbox.entries.filter (fun e => e.id != msg.imapData.uid) } }) := by
        simp only [saveBitmessage, if_neg h0, hdel, hget]
      rw [he]
      exact ⟨hs, hok1⟩
    | none =>
      cases hins : Folder.insertMessage { box.mbox with entries := box.mbox.entries.filter (fun e => e.id != msg.imapData.uid) } msg.imapData.uid (serializeBM msg) msg.encoding with
      | none =>
        have he : saveBitmessage box msg = (some "insert failed", { box with mbox := { box.mbox with entries := box.mbox.entries.filter (fun e => e.id != msg.imapData.uid) } }) := by
          simp only [saveBitmessage, if_neg h0, hdel, hget, hins]
        rw [he]
        exact ⟨hs, hok1⟩
      | some f2 =>
        have he : saveBitmessage box msg = refresh { box with mbox := f2 } := by
          simp only [saveBitmessage, if_neg h0, hdel, hget, hins]
        rw [he]
        have hok2 := insertMessage_storeOK _ _ _ _ f2 hins hok1
        have hr := refresh_preserves { box with mbox := f2 } hok2 hs
        refine ⟨hr.1, ?_⟩
        rw [hr.2]
        exact hok2

theorem mem_removeFirst :
    ∀ (l : List ℕ) (id x : ℕ), x ∈ removeFirst l id → x ∈ l := by
  intro l
  induction l with
  | nil => intro id x hx; simpa [removeFirst] using hx
  | cons y ys ih =>
    intro id x hx
    rw [removeFirst_cons] at hx
    split_ifs at hx
    · exact List.mem_cons_of_mem _ hx
    · rcases List.mem_cons.mp hx with rfl | hx
      · exact List.mem_cons_self _ _
      · exact List.mem_cons_of_mem _ (ih id x hx)

theorem removeFirst_pairwise :
    ∀ (l : List ℕ) (id : ℕ), l.Pairwise (· < ·) →
      (removeFirst l id).Pairwise (· < ·) := by
  intro l
  induction l with
  | nil => intro id _; simp [removeFirst]
  | cons y ys ih =>
    intro id hp
    rcases List.pairwise_cons.mp hp with ⟨hy, hys⟩
    rw [removeFirst_cons]
    split_ifs
    · exact hys
    · exact List.pairwise_cons.mpr
        ⟨fun z hz => hy z (mem_removeFirst ys id z hz), ih id hys⟩

/-- C9: assuming the store enumerates distinct identifiers in ascending
order, the identifier index `uids` is strictly ascending with no
duplicates after construction and after every completed mutation —
mailbox construction, refresh, AddNew, Save and DeleteBitmessageByUID
all preserve the invariant (together with store well-formedness). -/
theorem uids_strictly_ascending_invariant :
    (∀ (f : Folder) (m : Mbox), StoreOK f → NewMailbox f = some m →
        SortedU m ∧ StoreOK m.mbox) ∧
    (∀ box : Mbox, StoreOK box.mbox → SortedU box →
        SortedU (refresh box).2 ∧ StoreOK (refresh box).2.mbox) ∧
    (∀ (box : Mbox) (bmsg : Bitmessage) (flags now : ℕ),
        StoreOK box.mbox → SortedU box →
        SortedU (AddNew box bmsg flags now).2 ∧
        StoreOK (AddNew box bmsg flags now).2.mbox) ∧
    (∀ (box : Mbox) (email : IMAPEmail), StoreOK box.mbox → SortedU box →
        SortedU (Save box email).2 ∧ StoreOK (Save box email).2.mbox) ∧
    (∀ (box : Mbox) (id : ℕ), StoreOK box.mbox → SortedU box →
        SortedU (DeleteBitmessageByUID box id).2 ∧
        StoreOK (DeleteBitmessageByUID box id).2.mbox) := by
  have hrefresh : ∀ box : Mbox, StoreOK box.mbox → SortedU box →
      SortedU (refresh box).2 ∧ StoreOK (refresh box).2.mbox := by
    intro box hok hs
    have h := refresh_preserves box hok hs
    refine ⟨h.1, ?_⟩
    rw [h.2]
    exact hok
  refine ⟨?_, hrefresh, ?_, ?_, ?_⟩
  · intro f m hok hnew
    unfold NewMailbox at hnew
    rcases hres : refresh { mbox := f, sub := none, drafts := false, uids := [], numRecent := 0, numUnseen := 0, nextUID := 0 } with ⟨err, m'⟩
    have h := hrefresh { mbox := f, sub := none, drafts := false, uids := [], numRecent := 0, numUnseen := 0, nextUID := 0 } hok (by simp [SortedU])
    rw [hres] at hnew h
    cases err
    · have : m = m' := by
        simp at hnew
        exact hnew.symm
      subst this
      exact h
    · simp at hnew
  · intro box bmsg flags now hok hs
    simp only [AddNew]
    exact saveBitmessage_preserves box _ hok hs
  · intro box email hok hs
    cases hcv : (if box.drafts then newBitmessageDraftFromSMTP email.content
        else newBitmessageFromSMTP email.content) with
    | none =>
      have he : Save box email = (some "conversion failed", box) := by
        simp only [Save, hcv]
      rw [he]
      exact ⟨hs, hok⟩
    | some msg0 =>
      by_cases h0 : email.imapUID ≠ 0
      · cases hprev : bmsgByUID box email.imapUID with
        | none =>
          have he : Save box email = (some "Invalid sequence number", box) := by
            simp only [Save, hcv]
            rw [if_pos h0, hprev]
          rw [he]
          exact ⟨hs, hok⟩
        | some previous =>
          by_cases h1 : previous.imapData.uid ≠ email.imapUID
          · have he : Save box email = (some "Invalid uid", box) := by
              simp only [Save, hcv]
              rw [if_pos h0, hprev]
              simp only
              rw [if_pos h1]
            rw [he]
            exact ⟨hs, hok⟩
          · by_cases h2 : previous.imapData.timeReceived ≠ email.date
            · have he : Save box email =
                  (some "Cannot change date received", box) := by
                simp only [Save, hcv]
                rw [if_pos h0, hprev]
                simp only
                rw [if_neg h1, if_pos h2]
              rw [he]
              exact ⟨hs, hok⟩
            · have he : Save box email = saveBitmessage box
                  { msg0 with
                    imapData := { uid := email.imapUID,
                                  sequenceNumber := email.imapSequenceNumber,
                                  flags := email.imapFlags,
                                  timeReceived := email.date },
                    ackReceived := previous.ackReceived } := by
                simp only [Save, hcv]
                rw [if_pos h0, hprev]
                simp only
                rw [if_neg h1, if_neg h2]
              rw [he]
              exact saveBitmessage_preserves box _ hok hs
      · have he : Save box email = saveBitmessage box
            { msg0 with
              imapData := { uid := email.imapUID,
                            sequenceNumber := email.imapSequenceNumber,
                            flags := email.imapFlags,
                            timeReceived := email.date } } := by
          simp only [Save, hcv]
          rw [if_neg h0]
        rw [he]
        exact saveBitmessage_preserves box _ hok hs
  · intro box id hok hs
    unfold DeleteBitmessageByUID
    rcases hb : bmsgByUID box id with _ | bmsg
    · exact ⟨hs, hok⟩
    · rcases hdel : box.mbox.deleteMessage id with _ | f'
      · exact ⟨hs, hok⟩
      · have hok' := deleteMessage_storeOK box.mbox id f' hdel hok
        exact ⟨removeFirst_pairwise box.uids id hs, hok'⟩

/-- Witness for C9: refreshing the sample mailbox keeps the index
strictly ascending and the store well-formed. -/
theorem uids_strictly_ascending_invariant_witness :
    SortedU (refresh sampleBox).2 ∧ StoreOK (refresh sampleBox).2.mbox :=
  uids_strictly_ascending_invariant.2.1 sampleBox
    ⟨by decide, by decide⟩
    (show List.Pairwise (· < ·) sampleBox.uids by decide)

end BmMailbox
